import Mathlib

/-!
A verification development for the configuration-mutation core of the
`vmware-tuner` repository.  The Go sources are embedded shallowly:

* strings are modelled as lists of characters (`Str`);
* each Go function of interest becomes an executable Lean definition that
  follows the source line by line (file reads become explicit arguments,
  filesystem effects become explicit state values);
* the claimed properties are proved as theorems about those definitions.

Components covered: the GRUB parameter merge engine (`mergeParams`,
`updateGrubLines`), the fstab parser/serializer (`ParseFstab`,
`GenerateFstab`), the disk topology resolver (`findRootInTree`,
`extractPartitionNumber`), and the backup manifest store (`BackupFile`,
`AddEntry`, `RestoreFromManifest`).
-/

set_option maxHeartbeats 1000000

/-- Byte-string model: a string is its list of characters. -/
abbrev Str := List Char

/-- Embed a Lean string literal into the character-list model. -/
def str (s : String) : Str := s.toList

/-! ## Parameter merge engine (`GrubTuner.mergeParams`)

The Go code keeps a `map[string]string` from parameter key to full token,
seeded from `existing` in order and then overwritten with each of `new` in
order.  The map is modelled as an insertion-ordered association list:
assignment replaces the binding in place when the key is present and appends
it otherwise, which is exactly the contents (and one iteration order) of the
Go map. -/

/-- Key of a boot parameter: the substring before the first `=`, or the whole
token for a flag (Go: `strings.Index(param, "=")` slice). -/
def getKey (p : Str) : Str := p.takeWhile (fun c => c != '=')

/-- Map assignment `m[k] = v` on an insertion-ordered association list. -/
def insertParam : List (Str × Str) → Str → Str → List (Str × Str)
  | [], k, v => [(k, v)]
  | kv :: rest, k, v =>
    if kv.1 = k then (k, v) :: rest else kv :: insertParam rest k v

/-- One iteration of the Go merge loops: `paramMap[getKey(param)] = param`. -/
def stepParam (m : List (Str × Str)) (param : Str) : List (Str × Str) :=
  insertParam m (getKey param) param

/-- `GrubTuner.mergeParams`: seed the key map from `existing`, overwrite with
`new`, return the stored tokens. -/
def mergeParams (existing new : List Str) : List Str :=
  let paramMap := existing.foldl stepParam []
  let paramMap := new.foldl stepParam paramMap
  paramMap.map (fun kv => kv.2)

/-- First map binding with the given key. -/
def findEntry (m : List (Str × Str)) (k : Str) : Option (Str × Str) :=
  m.find? (fun kv => kv.1 == k)

/-- The last token in a parameter list whose key is `k`. -/
def lastWith (k : Str) : List Str → Option Str
  | [] => none
  | p :: ps =>
    match lastWith k ps with
    | some q => some q
    | none => if getKey p = k then some p else none

/-- Keys of an association list. -/
def keysOf (m : List (Str × Str)) : List Str := m.map (fun kv => kv.1)

theorem findEntry_nil (k : Str) : findEntry [] k = none := rfl

theorem findEntry_cons (a : Str × Str) (l : List (Str × Str)) (k : Str) :
    findEntry (a :: l) k = if a.1 = k then some a else findEntry l k := by
  by_cases h : a.1 = k
  · simp [findEntry, List.find?_cons_of_pos, h]
  · simp [findEntry, List.find?_cons_of_neg, h]

theorem findEntry_insertParam (m : List (Str × Str)) (k v k2 : Str) :
    findEntry (insertParam m k v) k2 =
      if k2 = k then some (k, v) else findEntry m k2 := by
  induction m with
  | nil =>
    show findEntry [(k, v)] k2 = _
    rw [findEntry_cons, findEntry_nil]
    rcases eq_or_ne k2 k with h | h
    · subst h; simp
    · rw [if_neg (fun e => h e.symm), if_neg h]
  | cons kv rest ih =>
    show findEntry (if kv.1 = k then (k, v) :: rest else kv :: insertParam rest k v) k2 = _
    by_cases hk : kv.1 = k
    · rw [if_pos hk, findEntry_cons, findEntry_cons]
      rcases eq_or_ne k2 k with h | h
      · subst h; simp
      · rw [if_neg (fun e => h e.symm), if_neg h,
          if_neg (fun e => h ((hk ▸ e : k = k2)).symm)]
    · rw [if_neg hk, findEntry_cons, findEntry_cons, ih]
      rcases eq_or_ne k2 k with h | h
      · rw [if_pos h, if_pos h, if_neg (fun e => hk (e.trans h))]
      · rw [if_neg h, if_neg h]

theorem keysOf_insertParam (m : List (Str × Str)) (k v : Str) :
    keysOf (insertParam m k v) =
      if k ∈ keysOf m then keysOf m else keysOf m ++ [k] := by
  induction m with
  | nil => simp [insertParam, keysOf]
  | cons kv rest ih =>
    show keysOf (if kv.1 = k then (k, v) :: rest else kv :: insertParam rest k v) = _
    by_cases hk : kv.1 = k
    · rw [if_pos hk]
      have hmem : k ∈ keysOf (kv :: rest) := by simp [keysOf, hk.symm]
      rw [if_pos hmem]
      simp [keysOf, hk]
    · rw [if_neg hk]
      have hcons : keysOf (kv :: insertParam rest k v)
          = kv.1 :: keysOf (insertParam rest k v) := rfl
      by_cases hmem : k ∈ keysOf rest
      · have : k ∈ keysOf (kv :: rest) := by simp [keysOf] at hmem ⊢; exact Or.inr hmem
        rw [hcons, ih, if_pos hmem, if_pos this]
        rfl
      · have : ¬ k ∈ keysOf (kv :: rest) := by
          simp [keysOf] at hmem ⊢
          exact ⟨fun e => hk e.symm, hmem⟩
        rw [hcons, ih, if_neg hmem, if_neg this]
        rfl

theorem nodup_keysOf_insertParam (m : List (Str × Str)) (k v : Str)
    (h : (keysOf m).Nodup) : (keysOf (insertParam m k v)).Nodup := by
  rw [keysOf_insertParam]
  by_cases hmem : k ∈ keysOf m
  · rwa [if_pos hmem]
  · rw [if_neg hmem]
    simp [List.nodup_append, h, hmem]

/-- Every stored token carries the key it is filed under. -/
def WellKeyed (m : List (Str × Str)) : Prop := ∀ kv ∈ m, getKey kv.2 = kv.1

theorem wellKeyed_insertParam (m : List (Str × Str)) (k v : Str)
    (h : WellKeyed m) (hv : getKey v = k) : WellKeyed (insertParam m k v) := by
  induction m with
  | nil =>
    intro kv hkv
    simp [insertParam] at hkv
    subst hkv; exact hv
  | cons a rest ih =>
    intro kv hkv
    by_cases ha : a.1 = k
    · simp only [insertParam, if_pos ha] at hkv
      rcases List.mem_cons.mp hkv with h1 | h2
      · subst h1; exact hv
      · exact h kv (List.mem_cons_of_mem _ h2)
    · simp only [insertParam, if_neg ha] at hkv
      rcases List.mem_cons.mp hkv with h1 | h2
      · rw [h1]; exact h a (List.mem_cons_self a rest)
      · exact ih (fun q hq => h q (List.mem_cons_of_mem _ hq)) kv h2

theorem foldl_stepParam_invariant (ps : List Str) (m : List (Str × Str))
    (h1 : (keysOf m).Nodup) (h2 : WellKeyed m) :
    (keysOf (ps.foldl stepParam m)).Nodup ∧ WellKeyed (ps.foldl stepParam m) := by
  induction ps generalizing m with
  | nil => exact ⟨h1, h2⟩
  | cons p ps ih =>
    exact ih (insertParam m (getKey p) p)
      (nodup_keysOf_insertParam m (getKey p) p h1)
      (wellKeyed_insertParam m (getKey p) p h2 rfl)

theorem findEntry_foldl_stepParam (ps : List Str) (m : List (Str × Str)) (k : Str) :
    findEntry (ps.foldl stepParam m) k =
      match lastWith k ps with
      | some q => some (k, q)
      | none => findEntry m k := by
  induction ps generalizing m with
  | nil => rfl
  | cons p ps ih =>
    show findEntry (ps.foldl stepParam (insertParam m (getKey p) p)) k = _
    rw [ih, findEntry_insertParam]
    simp only [lastWith]
    cases hl : lastWith k ps with
    | none =>
      rcases eq_or_ne k (getKey p) with h | h
      · simp [← h]
      · simp [h, Ne.symm h]
    | some q => simp

theorem lastWith_getKey (k : Str) (ps : List Str) (q : Str)
    (h : lastWith k ps = some q) : getKey q = k ∧ q ∈ ps := by
  induction ps with
  | nil => simp [lastWith] at h
  | cons p ps ih =>
    simp only [lastWith] at h
    rcases hl : lastWith k ps with _ | r
    · rw [hl] at h
      by_cases hp : getKey p = k
      · rw [if_pos hp] at h
        obtain rfl : p = q := by injection h
        exact ⟨hp, List.mem_cons_self p ps⟩
      · rw [if_neg hp] at h; exact absurd h (by simp)
    · rw [hl] at h
      obtain rfl : r = q := by injection h
      obtain ⟨hk, hm⟩ := ih hl
      exact ⟨hk, List.mem_cons_of_mem _ hm⟩

theorem lastWith_isSome_of_mem (p : Str) (ps : List Str) (h : p ∈ ps) :
    (lastWith (getKey p) ps).isSome := by
  induction ps with
  | nil => simp at h
  | cons a ps ih =>
    simp only [lastWith]
    rcases hl : lastWith (getKey p) ps with _ | q
    · rcases List.mem_cons.mp h with rfl | hmem
      · simp
      · have := ih hmem
        rw [hl] at this
        simp at this
    · simp

theorem map_getKey_snd (m : List (Str × Str)) (h : WellKeyed m) :
    (m.map (fun kv => kv.2)).map getKey = keysOf m := by
  induction m with
  | nil => rfl
  | cons kv rest ih =>
    have h1 := h kv (List.mem_cons_self kv rest)
    have h2 := ih (fun q hq => h q (List.mem_cons_of_mem _ hq))
    show getKey kv.2 :: (rest.map (fun kv => kv.2)).map getKey = kv.1 :: keysOf rest
    rw [h1, h2]

/-- C3: for all parameter lists `A` and `B`, `mergeParams A B` has no two
parameters sharing a key, and every key occurring in `B` appears in the result
carrying the last token of `B` for that key. -/
theorem mergeParams_keys_unique_desired_wins (A B : List Str) :
    ((mergeParams A B).map getKey).Nodup ∧
    ∀ p, p ∈ B → ∃ q, q ∈ mergeParams A B ∧ getKey q = getKey p ∧
      lastWith (getKey p) B = some q := by
  have hbase1 : (keysOf ([] : List (Str × Str))).Nodup := by simp [keysOf]
  have hbase2 : WellKeyed ([] : List (Str × Str)) := by intro kv hkv; simp at hkv
  have hinner := foldl_stepParam_invariant A [] hbase1 hbase2
  have houter := foldl_stepParam_invariant B (A.foldl stepParam []) hinner.1 hinner.2
  have hmerge : mergeParams A B
      = (B.foldl stepParam (A.foldl stepParam [])).map (fun kv => kv.2) := rfl
  constructor
  · rw [hmerge, map_getKey_snd _ houter.2]
    exact houter.1
  · intro p hp
    have hsome := lastWith_isSome_of_mem p B hp
    obtain ⟨q, hq⟩ := Option.isSome_iff_exists.mp hsome
    have hfind : findEntry (B.foldl stepParam (A.foldl stepParam []))
        (getKey p) = some (getKey p, q) := by
      rw [findEntry_foldl_stepParam, hq]
    have hmem : (getKey p, q) ∈ B.foldl stepParam (A.foldl stepParam []) :=
      List.mem_of_find?_eq_some hfind
    refine ⟨q, ?_, (lastWith_getKey _ _ _ hq).1, hq⟩
    rw [hmerge]
    exact List.mem_map_of_mem _ hmem

/-- Witness for C3 at the boot-parameter scenario from the spec. -/
theorem mergeParams_keys_unique_desired_wins_witness :
    ((mergeParams [str "quiet", str "ro"]
        [str "elevator=noop", str "quiet"]).map getKey).Nodup ∧
    ∃ q, q ∈ mergeParams [str "quiet", str "ro"]
          [str "elevator=noop", str "quiet"] ∧
      getKey q = getKey (str "quiet") ∧
      lastWith (getKey (str "quiet")) [str "elevator=noop", str "quiet"] = some q :=
  ⟨(mergeParams_keys_unique_desired_wins _ _).1,
   (mergeParams_keys_unique_desired_wins _ _).2 (str "quiet") (by decide)⟩

theorem insertParam_notMem (m : List (Str × Str)) (k v : Str)
    (h : k ∉ keysOf m) : insertParam m k v = m ++ [(k, v)] := by
  induction m with
  | nil => rfl
  | cons kv rest ih =>
    have hk : kv.1 ≠ k := by
      intro e; exact h (by simp [keysOf, e])
    have hrest : k ∉ keysOf rest := by
      intro e; exact h (by simp [keysOf] at e ⊢; exact Or.inr e)
    show (if kv.1 = k then (k, v) :: rest else kv :: insertParam rest k v) = _
    rw [if_neg hk, ih hrest]
    rfl

theorem foldl_stepParam_all_new (A : List Str) (m : List (Str × Str))
    (h : (keysOf m ++ A.map getKey).Nodup) :
    A.foldl stepParam m = m ++ A.map (fun p => (getKey p, p)) := by
  induction A generalizing m with
  | nil => simp
  | cons p A ih =>
    have hnot : getKey p ∉ keysOf m := by
      intro hmem
      have hdisj := (List.nodup_append.mp h).2.2
      exact hdisj hmem (by simp)
    have hstep : stepParam m p = m ++ [(getKey p, p)] :=
      insertParam_notMem m (getKey p) p hnot
    show A.foldl stepParam (stepParam m p) = _
    rw [hstep, ih (m ++ [(getKey p, p)]) ?_]
    · rw [List.append_assoc]
      rfl
    · have : keysOf (m ++ [(getKey p, p)]) = keysOf m ++ [getKey p] := by
        simp [keysOf]
      rw [this, List.append_assoc]
      simpa using h

theorem findEntry_mapPair (A : List Str) (h : (A.map getKey).Nodup) :
    ∀ p ∈ A, findEntry (A.map (fun x => (getKey x, x))) (getKey p)
      = some (getKey p, p) := by
  induction A with
  | nil => intro p hp; simp at hp
  | cons a A ih =>
    intro p hp
    rcases List.mem_cons.mp hp with rfl | hmem
    · show findEntry ((getKey p, p) :: _) (getKey p) = _
      rw [findEntry_cons, if_pos rfl]
    · have hnd : getKey a ∉ A.map getKey ∧ (A.map getKey).Nodup :=
        List.nodup_cons.mp (by simpa using h)
      have hne : getKey a ≠ getKey p := by
        intro e
        exact hnd.1 (by rw [e]; exact List.mem_map_of_mem _ hmem)
      show findEntry ((getKey a, a) :: _) (getKey p) = _
      rw [findEntry_cons, if_neg hne]
      exact ih hnd.2 p hmem

theorem insertParam_found_self (m : List (Str × Str)) (k v : Str)
    (h : findEntry m k = some (k, v)) : insertParam m k v = m := by
  induction m with
  | nil => simp [findEntry_nil] at h
  | cons kv rest ih =>
    rw [findEntry_cons] at h
    show (if kv.1 = k then (k, v) :: rest else kv :: insertParam rest k v) = _
    by_cases hk : kv.1 = k
    · rw [if_pos hk]
      rw [if_pos hk] at h
      have h' : kv = (k, v) := by
        have := h.symm
        injection this with hkv
        exact hkv.symm
      rw [h']
    · rw [if_neg hk]
      rw [if_neg hk] at h
      rw [ih h]

theorem foldl_stepParam_refound (ps : List Str) (m : List (Str × Str))
    (h : ∀ p ∈ ps, findEntry m (getKey p) = some (getKey p, p)) :
    ps.foldl stepParam m = m := by
  induction ps with
  | nil => rfl
  | cons p ps ih =>
    have hstep : stepParam m p = m :=
      insertParam_found_self m (getKey p) p (h p (List.mem_cons_self p ps))
    show ps.foldl stepParam (stepParam m p) = m
    rw [hstep]
    exact ih (fun q hq => h q (List.mem_cons_of_mem _ hq))

theorem mergeParams_self_eq (A : List Str) (h : (A.map getKey).Nodup) :
    mergeParams A A = A := by
  have h1 : A.foldl stepParam [] = A.map (fun p => (getKey p, p)) := by
    have := foldl_stepParam_all_new A [] (by simpa [keysOf] using h)
    simpa using this
  have h2 : A.foldl stepParam (A.map (fun p => (getKey p, p)))
      = A.map (fun p => (getKey p, p)) :=
    foldl_stepParam_refound A _ (findEntry_mapPair A h)
  show (A.foldl stepParam (A.foldl stepParam [])).map (fun kv => kv.2) = A
  rw [h1, h2, List.map_map]
  have hcomp : ((fun kv : Str × Str => kv.2) ∘ fun p : Str => (getKey p, p)) = id := rfl
  rw [hcomp, List.map_id]

/-- C7: under the invariant that keys within one parameter set are unique,
`mergeParams A A` equals `A` up to reordering of parameters. -/
theorem mergeParams_self_idempotent (A : List Str)
    (h : (A.map getKey).Nodup) : (mergeParams A A).Perm A := by
  rw [mergeParams_self_eq A h]

/-- Witness for C7 on a concrete duplicate-free parameter set. -/
theorem mergeParams_self_idempotent_witness :
    (([str "quiet", str "elevator=noop"].map getKey).Nodup) ∧
    (mergeParams [str "quiet", str "elevator=noop"]
        [str "quiet", str "elevator=noop"]).Perm
      [str "quiet", str "elevator=noop"] :=
  ⟨by decide, mergeParams_self_idempotent _ (by decide)⟩

/-! ## Whitespace handling

Go uses two different whitespace classes: `strings.TrimSpace` strips the
full Unicode `White_Space` set (`unicode.IsSpace`), while the `\s` class of
its regexp package (RE2) matches only `[\t\n\f\r ]`.  The characters in the
first class but not in the second (vertical tab, NEL, NBSP, and the
non-Latin-1 Unicode spaces) are named separately below, because the two
classes genuinely disagree on them. -/

/-- Whitespace as matched by the `\s` class of Go's regexp package (RE2):
`[\t\n\f\r ]`. -/
def re2IsSpace (c : Char) : Bool :=
  c == ' ' || c == '\t' || c == '\n' || c == '\x0c' || c == '\r'

/-- The Unicode `White_Space` characters NOT matched by RE2's `\s`:
vertical tab, NEL (U+0085), NBSP (U+00A0), U+1680, U+2000–U+200A, U+2028,
U+2029, U+202F, U+205F, U+3000.  `strings.TrimSpace` strips these, but the
regexp field splitter does not split on them. -/
def unicodeOnlySpace (c : Char) : Bool :=
  c == '\x0b' || c == '\x85' || c == '\xa0' || c == '\u1680' ||
  c == '\u2000' || c == '\u2001' || c == '\u2002' || c == '\u2003' ||
  c == '\u2004' || c == '\u2005' || c == '\u2006' || c == '\u2007' ||
  c == '\u2008' || c == '\u2009' || c == '\u200a' || c == '\u2028' ||
  c == '\u2029' || c == '\u202f' || c == '\u205f' || c == '\u3000'

/-- Whitespace as recognised by Go `strings.TrimSpace` (`unicode.IsSpace`):
the full Unicode `White_Space` set — space, `\t`, `\n`, `\f`, `\r`, plus
vertical tab, NEL (U+0085), NBSP (U+00A0), U+1680, U+2000–U+200A, U+2028,
U+2029, U+202F, U+205F and U+3000. -/
def goIsSpace (c : Char) : Bool :=
  c == ' ' || c == '\t' || c == '\n' || c == '\x0c' || c == '\r' ||
  c == '\x0b' || c == '\x85' || c == '\xa0' || c == '\u1680' ||
  c == '\u2000' || c == '\u2001' || c == '\u2002' || c == '\u2003' ||
  c == '\u2004' || c == '\u2005' || c == '\u2006' || c == '\u2007' ||
  c == '\u2008' || c == '\u2009' || c == '\u200a' || c == '\u2028' ||
  c == '\u2029' || c == '\u202f' || c == '\u205f' || c == '\u3000'

/-- Go `strings.TrimSpace`: strip trailing, then leading, whitespace. -/
def trim (s : Str) : Str :=
  ((s.reverse.dropWhile goIsSpace).reverse).dropWhile goIsSpace

/-! ## GRUB config line rewriting (`GrubTuner.updateGrubLines`)

The Go code tests `regexp ^GRUB_CMDLINE_LINUX_DEFAULT=` against the trimmed
line (i.e. a prefix test) and replaces matching lines with
`GRUB_CMDLINE_LINUX_DEFAULT="<newCmdline>"`. -/

/-- The Go regexp `^GRUB_CMDLINE_LINUX_DEFAULT=` applied to the trimmed line. -/
def matchesCmdlineKey (line : Str) : Bool :=
  (str "GRUB_CMDLINE_LINUX_DEFAULT=").isPrefixOf (trim line)

/-- The replacement line `GRUB_CMDLINE_LINUX_DEFAULT="<newCmdline>"`. -/
def grubCmdlineLine (newCmdline : Str) : Str :=
  str "GRUB_CMDLINE_LINUX_DEFAULT=" ++ '"' :: (newCmdline ++ ['"'])

/-- `GrubTuner.updateGrubLines`. -/
def updateGrubLines (lines : List Str) (newCmdline : Str) : List Str :=
  lines.map (fun line =>
    if matchesCmdlineKey line then grubCmdlineLine newCmdline else line)

theorem getD_map_lt {α β : Type} (l : List α) (f : α → β) (i : Nat)
    (d : β) (e : α) (h : i < l.length) :
    (l.map f).getD i d = f (l.getD i e) := by
  induction l generalizing i with
  | nil => simp at h
  | cons a l ih =>
    cases i with
    | zero => rfl
    | succ j =>
      have hj : j < l.length := Nat.lt_of_succ_lt_succ h
      show (l.map f).getD j d = f (l.getD j e)
      exact ih j hj

/-- C8: `updateGrubLines` rewrites exactly the lines matching the
`GRUB_CMDLINE_LINUX_DEFAULT=` key — each replaced by
`GRUB_CMDLINE_LINUX_DEFAULT="<new cmdline>"` — and leaves every other line
byte-identical, in the same order. -/
theorem updateGrubLines_frame (lines : List Str) (newCmdline : Str) :
    (updateGrubLines lines newCmdline).length = lines.length ∧
    ∀ i, i < lines.length →
      ((matchesCmdlineKey (lines.getD i []) = true →
          (updateGrubLines lines newCmdline).getD i []
            = grubCmdlineLine newCmdline) ∧
       (matchesCmdlineKey (lines.getD i []) = false →
          (updateGrubLines lines newCmdline).getD i [] = lines.getD i [])) := by
  constructor
  · exact List.length_map _ _
  · intro i hi
    have hmap : (updateGrubLines lines newCmdline).getD i []
        = if matchesCmdlineKey (lines.getD i [])
            then grubCmdlineLine newCmdline else lines.getD i [] :=
      getD_map_lt lines _ i [] [] hi
    constructor
    · intro hm; rw [hmap, if_pos hm]
    · intro hm
      have hne : ¬ (matchesCmdlineKey (lines.getD i []) = true) := by
        rw [hm]; exact Bool.false_ne_true
      rw [hmap, if_neg hne]

/-- Witness for C8: a two-line config where only the second line matches. -/
theorem updateGrubLines_frame_witness :
    (updateGrubLines
        [str "GRUB_TIMEOUT=5", str "GRUB_CMDLINE_LINUX_DEFAULT=\"quiet\""]
        (str "quiet splash")).getD 1 []
      = grubCmdlineLine (str "quiet splash") ∧
    (updateGrubLines
        [str "GRUB_TIMEOUT=5", str "GRUB_CMDLINE_LINUX_DEFAULT=\"quiet\""]
        (str "quiet splash")).getD 0 []
      = [str "GRUB_TIMEOUT=5", str "GRUB_CMDLINE_LINUX_DEFAULT=\"quiet\""].getD 0 [] :=
  ⟨((updateGrubLines_frame _ _).2 1 (by decide)).1 (by decide),
   ((updateGrubLines_frame _ _).2 0 (by decide)).2 (by decide)⟩

/-! ## Disk topology resolver (`DiskTuner.findRootInTree`,
`DiskTuner.extractPartitionNumber`) -/

/-- Leftmost maximal digit run, modelling Go `regexp \d+` `FindString`. -/
def firstDigitRun (s : Str) : Str :=
  (s.dropWhile (fun c => !c.isDigit)).takeWhile (fun c => c.isDigit)

/-- `DiskTuner.extractPartitionNumber`: strip the disk-name prefix
(`strings.TrimPrefix`), strip an optional `p` separator, return the first run
of digits, or the fallback `"1"`. -/
def extractPartitionNumber (disk partition : Str) : Str :=
  let suffix := if disk.isPrefixOf partition
    then partition.drop disk.length else partition
  let suffix2 := if suffix.head? = some 'p' then suffix.drop 1 else suffix
  if firstDigitRun suffix2 = [] then ['1'] else firstDigitRun suffix2

theorem digitRun_result (s : Str) :
    0 < (if firstDigitRun s = [] then ['1'] else firstDigitRun s).length ∧
    (if firstDigitRun s = [] then ['1'] else firstDigitRun s).all
      (fun c => c.isDigit) = true := by
  by_cases h : firstDigitRun s = []
  · rw [if_pos h]
    exact ⟨by decide, by decide⟩
  · rw [if_neg h]
    refine ⟨List.length_pos.mpr h, ?_⟩
    rw [List.all_eq_true]
    intro c hc
    exact List.mem_takeWhile_imp hc

/-- C9: `extractPartitionNumber` is total and always returns a non-empty
string consisting only of decimal digits (the first digit run after prefix-
and separator-stripping, or the fallback `"1"`). -/
theorem extractPartitionNumber_nonempty_digits (disk partition : Str) :
    0 < (extractPartitionNumber disk partition).length ∧
    (extractPartitionNumber disk partition).all (fun c => c.isDigit) = true :=
  digitRun_result _

/-- `BlockDevice`: a node of the lsblk JSON tree. -/
inductive BlockDevice : Type where
  | mk (name typ mountpoint : Str) (children : List BlockDevice)

/-- Device name. -/
def BlockDevice.name : BlockDevice → Str
  | .mk n _ _ _ => n

/-- Device mount point (empty when unmounted). -/
def BlockDevice.mountpoint : BlockDevice → Str
  | .mk _ _ mp _ => mp

/-- Child devices (partitions, or logical volumes for containers). -/
def BlockDevice.children : BlockDevice → List BlockDevice
  | .mk _ _ _ cs => cs

/-- Error of `findRootInTree` case 1 (root mounted on a raw disk). -/
def rawDiskErr : Str :=
  str "root is on a raw disk without partitions, dangerous to resize automatically"

/-- Error of `findRootInTree` when an LVM logical volume carries `/`. -/
def lvmErr : Str := str "LVM detected. Automated LVM resizing is disabled for safety"

/-- Error of `findRootInTree` when no node carries `/`. -/
def rootNotFoundErr : Str := str "root partition not found in disk tree"

/-- Inner loop of `findRootInTree` over one disk's children: a child mounted
at `/` yields (disk, partition index, no error); otherwise a grandchild
mounted at `/` (LVM) yields the LVM error; otherwise continue. -/
def scanChildren (diskName : Str) : List BlockDevice → Option (Str × Str × Option Str)
  | [] => none
  | child :: rest =>
    if child.mountpoint = str "/" then
      some (diskName, extractPartitionNumber diskName child.name, none)
    else if child.children.any (fun lv => lv.mountpoint == str "/") then
      some ([], [], some lvmErr)
    else
      scanChildren diskName rest

/-- `DiskTuner.findRootInTree`, returning the Go triple
(diskName, partNum, error). -/
def findRootInTree : List BlockDevice → Str × Str × Option Str
  | [] => ([], [], some rootNotFoundErr)
  | dev :: rest =>
    if dev.mountpoint = str "/" then
      (dev.name, [], some rawDiskErr)
    else
      match scanChildren dev.name dev.children with
      | some r => r
      | none => findRootInTree rest

mutual
/-- No node in this subtree is mounted at `/`. -/
def noRootDev : BlockDevice → Bool
  | .mk _ _ mp cs => !(mp == str "/") && noRootList cs

/-- No node in any of these subtrees is mounted at `/`. -/
def noRootList : List BlockDevice → Bool
  | [] => true
  | d :: ds => noRootDev d && noRootList ds
end

theorem noRootDev_spec (d : BlockDevice) (h : noRootDev d = true) :
    d.mountpoint ≠ str "/" ∧ noRootList d.children = true := by
  cases d with
  | mk n t mp cs =>
    rw [noRootDev, Bool.and_eq_true] at h
    obtain ⟨h1, h2⟩ := h
    refine ⟨?_, h2⟩
    intro e
    rw [BlockDevice.mountpoint] at e
    rw [e] at h1
    simp at h1

theorem noRootList_cons (d : BlockDevice) (ds : List BlockDevice)
    (h : noRootList (d :: ds) = true) :
    noRootDev d = true ∧ noRootList ds = true := by
  rw [noRootList, Bool.and_eq_true] at h
  exact h

theorem noRootList_no_lv (cs : List BlockDevice) (h : noRootList cs = true) :
    cs.any (fun lv => lv.mountpoint == str "/") = false := by
  induction cs with
  | nil => rfl
  | cons d ds ih =>
    obtain ⟨h1, h2⟩ := noRootList_cons d ds h
    have hmp := (noRootDev_spec d h1).1
    rw [List.any_cons, ih h2, Bool.or_false]
    exact beq_eq_false_iff_ne.mpr hmp

theorem scanChildren_none (dn : Str) (cs : List BlockDevice)
    (h : noRootList cs = true) : scanChildren dn cs = none := by
  induction cs with
  | nil => rfl
  | cons c rest ih =>
    obtain ⟨h1, h2⟩ := noRootList_cons c rest h
    obtain ⟨hmp, hcs⟩ := noRootDev_spec c h1
    show (if c.mountpoint = str "/" then _
      else if c.children.any (fun lv => lv.mountpoint == str "/") then _
      else scanChildren dn rest) = none
    rw [if_neg hmp, noRootList_no_lv c.children hcs, if_neg Bool.false_ne_true]
    exact ih h2

theorem findRootInTree_noRoot (devices : List BlockDevice)
    (h : noRootList devices = true) :
    findRootInTree devices = ([], [], some rootNotFoundErr) := by
  induction devices with
  | nil => rfl
  | cons d rest ih =>
    obtain ⟨h1, h2⟩ := noRootList_cons d rest h
    obtain ⟨hmp, hcs⟩ := noRootDev_spec d h1
    rw [findRootInTree, if_neg hmp, scanChildren_none d.name d.children hcs]
    exact ih h2

theorem findRootInTree_rawDisk (pre : List BlockDevice) (d : BlockDevice)
    (post : List BlockDevice) (hpre : noRootList pre = true)
    (hd : d.mountpoint = str "/") :
    findRootInTree (pre ++ d :: post) = (d.name, [], some rawDiskErr) := by
  induction pre with
  | nil => rw [List.nil_append, findRootInTree, if_pos hd]
  | cons p pre ih =>
    obtain ⟨h1, h2⟩ := noRootList_cons p pre hpre
    obtain ⟨hmp, hcs⟩ := noRootDev_spec p h1
    rw [List.cons_append, findRootInTree, if_neg hmp,
      scanChildren_none p.name p.children hcs]
    exact ih h2

theorem scanChildren_skip (dn : Str) (cpre cs : List BlockDevice)
    (h : noRootList cpre = true) :
    scanChildren dn (cpre ++ cs) = scanChildren dn cs := by
  induction cpre with
  | nil => rw [List.nil_append]
  | cons c rest ih =>
    obtain ⟨h1, h2⟩ := noRootList_cons c rest h
    obtain ⟨hmp, hcs⟩ := noRootDev_spec c h1
    rw [List.cons_append, scanChildren, if_neg hmp,
      noRootList_no_lv c.children hcs, if_neg Bool.false_ne_true]
    exact ih h2

theorem findRootInTree_lvm (pre : List BlockDevice) (d : BlockDevice)
    (post cpre : List BlockDevice) (c : BlockDevice) (cpost : List BlockDevice)
    (hpre : noRootList pre = true)
    (hd : d.mountpoint ≠ str "/")
    (hch : d.children = cpre ++ c :: cpost)
    (hcpre : noRootList cpre = true)
    (hc : c.mountpoint ≠ str "/")
    (hlv : c.children.any (fun lv => lv.mountpoint == str "/") = true) :
    findRootInTree (pre ++ d :: post) = ([], [], some lvmErr) := by
  induction pre with
  | nil =>
    rw [List.nil_append, findRootInTree, if_neg hd, hch,
      scanChildren_skip d.name cpre (c :: cpost) hcpre,
      scanChildren, if_neg hc, hlv]
    simp
  | cons p pre ih =>
    obtain ⟨h1, h2⟩ := noRootList_cons p pre hpre
    obtain ⟨hmp, hcs⟩ := noRootDev_spec p h1
    rw [List.cons_append, findRootInTree, if_neg hmp,
      scanChildren_none p.name p.children hcs]
    exact ih h2

/-- C2: `findRootInTree` fails closed — it returns an error and an empty
partition index (never a guessed (disk, index) pair) whenever no node of the
tree is mounted at `/`, whenever `/` sits directly on a top-level disk node,
and whenever `/` is only reached on a node two levels below a disk (an LVM
container). -/
theorem findRootInTree_failsClosed :
    (∀ devices, noRootList devices = true →
      findRootInTree devices = ([], [], some rootNotFoundErr)) ∧
    (∀ pre d post, noRootList pre = true →
      BlockDevice.mountpoint d = str "/" →
      findRootInTree (pre ++ d :: post)
        = (BlockDevice.name d, [], some rawDiskErr)) ∧
    (∀ pre d post cpre c cpost, noRootList pre = true →
      BlockDevice.mountpoint d ≠ str "/" →
      BlockDevice.children d = cpre ++ c :: cpost →
      noRootList cpre = true →
      BlockDevice.mountpoint c ≠ str "/" →
      (BlockDevice.children c).any
        (fun lv => BlockDevice.mountpoint lv == str "/") = true →
      findRootInTree (pre ++ d :: post) = ([], [], some lvmErr)) :=
  ⟨findRootInTree_noRoot,
   fun pre d post h1 h2 => findRootInTree_rawDisk pre d post h1 h2,
   fun pre d post cpre c cpost h1 h2 h3 h4 h5 h6 =>
     findRootInTree_lvm pre d post cpre c cpost h1 h2 h3 h4 h5 h6⟩

/-- Witness for C2: a rootless tree, a raw disk carrying `/`, and an LVM
stack carrying `/` two levels below the disk. -/
theorem findRootInTree_failsClosed_witness :
    findRootInTree
        [BlockDevice.mk (str "sda") (str "disk") []
          [BlockDevice.mk (str "sda1") (str "part") (str "/boot") []]]
      = ([], [], some rootNotFoundErr) ∧
    findRootInTree [BlockDevice.mk (str "sdb") (str "disk") (str "/") []]
      = (str "sdb", [], some rawDiskErr) ∧
    findRootInTree
        [BlockDevice.mk (str "sda") (str "disk") []
          [BlockDevice.mk (str "sda1") (str "part") []
            [BlockDevice.mk (str "vg-root") (str "lvm") (str "/") []]]]
      = ([], [], some lvmErr) :=
  ⟨findRootInTree_failsClosed.1 _ (by decide),
   findRootInTree_failsClosed.2.1 [] _ [] (by decide) (by decide),
   findRootInTree_failsClosed.2.2 [] _ [] []
     (BlockDevice.mk (str "sda1") (str "part") []
       [BlockDevice.mk (str "vg-root") (str "lvm") (str "/") []]) []
     (by decide) (by decide) rfl (by decide) (by decide) (by decide)⟩

/-- C6: on `sda{sda1:/boot, sda2:/}` the resolver returns ("sda","2") with no
error, and on `vda{vda1:/}` it resolves via the partition branch to
("vda","1") with no error. -/
theorem findRootInTree_partition_scenarios :
    findRootInTree
        [BlockDevice.mk (str "sda") (str "disk") []
          [BlockDevice.mk (str "sda1") (str "part") (str "/boot") [],
           BlockDevice.mk (str "sda2") (str "part") (str "/") []]]
      = (str "sda", str "2", none) ∧
    findRootInTree
        [BlockDevice.mk (str "vda") (str "disk") []
          [BlockDevice.mk (str "vda1") (str "part") (str "/") []]]
      = (str "vda", str "1", none) := by
  constructor
  · decide
  · decide

/-! ## Backup manifest store (`BackupManager`)

`BackupFile` is modelled by its manifest effect: the file copy is kept
abstract (existence and mode bits become function arguments), while the
manifest read-append-write of `AddEntry` is modelled exactly.  The manifest
file on disk is an `Option Manifest` (`none` when not yet written). -/

/-- `ManifestEntry` (original path, backup file name, permission bits). -/
structure ManifestEntry where
  originalPath : Str
  backupPath : Str
  mode : Nat
  deriving DecidableEq, Inhabited

/-- `Manifest`: one backup session record. -/
structure Manifest where
  timestamp : Str
  entries : List ManifestEntry
  deriving DecidableEq

/-- Go `filepath.Base`: empty path gives `.`, all-slash gives `/`, otherwise
the last component after trailing slashes are removed. -/
def baseName (p : Str) : Str :=
  if p = [] then ['.']
  else
    let q := (p.reverse.dropWhile (fun c => c == '/')).reverse
    if q = [] then ['/']
    else (q.reverse.takeWhile (fun c => !(c == '/'))).reverse

/-- `BackupManager.AddEntry`: read the existing manifest (or start a fresh
one with the session timestamp), append the new entry unconditionally, write
it back. -/
def AddEntry (ts : Str) (manifestFile : Option Manifest)
    (original backupName : Str) (mode : Nat) : Manifest :=
  let manifest := match manifestFile with
    | some m => m
    | none => { timestamp := ts, entries := [] }
  { manifest with
      entries := manifest.entries
        ++ [{ originalPath := original, backupPath := backupName, mode := mode }] }

/-- `BackupManager.BackupFile`, restricted to its manifest effect: a no-op
(and no error) when the path does not exist; otherwise the bytes are copied
and `AddEntry` records the file under its base name with its mode bits. -/
def BackupFile (fileExists : Str → Bool) (fileMode : Str → Nat) (ts : Str)
    (manifestFile : Option Manifest) (filePath : Str) : Option Manifest :=
  if fileExists filePath then
    some (AddEntry ts manifestFile filePath (baseName filePath) (fileMode filePath))
  else
    manifestFile

/-- Number of manifest entries recorded for a given original path. -/
def countEntries (m : Option Manifest) (path : Str) : Nat :=
  match m with
  | none => 0
  | some m => (m.entries.filter (fun e => e.originalPath == path)).length

/-- C1 evaluated on the code: in a fresh session, two `BackupFile` calls on
the same existing path leave TWO manifest entries for that path — `AddEntry`
appends unconditionally, so first-write-wins does not hold. -/
theorem backupFile_twice_two_entries :
    countEntries
      (BackupFile (fun _ => true) (fun _ => 420) (str "20240101-000000")
        (BackupFile (fun _ => true) (fun _ => 420) (str "20240101-000000")
          none (str "/etc/fstab"))
        (str "/etc/fstab"))
      (str "/etc/fstab") = 2 := by decide

/-! ## Restore loop (`BackupManager.RestoreFromManifest`)

The Go loop opens each backup file, opens the destination with truncation,
copies, and on any of these failing prints an error and moves to the next
entry; after the loop it unconditionally runs the reload commands and
returns `nil`.  The only error returns happen before the loop (manifest
missing or unparsable). -/

/-- Outcome of one restore-loop iteration. -/
inductive RestoreOutcome : Type where
  | restored
  | srcOpenFailed
  | destOpenFailed
  | copyFailed
  deriving DecidableEq

/-- Abstract filesystem behaviour driving the restore loop. -/
structure RestoreFS where
  srcReadable : Str → Bool
  destWritable : Str → Bool
  copyOk : Str → Bool

/-- One iteration of the restore loop for a single manifest entry. -/
def restoreEntry (fs : RestoreFS) (backupDir : Str) (e : ManifestEntry) :
    RestoreOutcome :=
  let srcPath := backupDir ++ '/' :: e.backupPath
  if !(fs.srcReadable srcPath) then .srcOpenFailed
  else if !(fs.destWritable e.originalPath) then .destOpenFailed
  else if !(fs.copyOk e.originalPath) then .copyFailed
  else .restored

/-- `BackupManager.RestoreFromManifest`: per-entry outcomes plus the returned
error.  A missing manifest is the only error return; the loop itself never
aborts. -/
def RestoreFromManifest (fs : RestoreFS) (backupDir : Str)
    (manifestData : Option Manifest) : List RestoreOutcome × Option Str :=
  match manifestData with
  | none => ([], some (str "manifest not found"))
  | some manifest => (manifest.entries.map (restoreEntry fs backupDir), none)

theorem filter_map_length {α β : Type} (f : α → β) (p : β → Bool) (l : List α) :
    ((l.map f).filter p).length = (l.filter (fun a => p (f a))).length := by
  induction l with
  | nil => rfl
  | cons a l ih => by_cases h : p (f a) <;> simp [List.filter_cons, h, ih]

/-- C5: once the manifest is read, restore attempts every entry — the
outcome of entry `i` is a function of entry `i` alone, so one failing entry
cannot prevent the others from being restored — the number of reported
failures equals the number of failing entries (one warning each), and the
operation as a whole returns no error. -/
theorem restoreFromManifest_best_effort (fs : RestoreFS) (backupDir : Str)
    (m : Manifest) :
    (RestoreFromManifest fs backupDir (some m)).2 = none ∧
    (RestoreFromManifest fs backupDir (some m)).1.length = m.entries.length ∧
    (∀ i, i < m.entries.length →
      (RestoreFromManifest fs backupDir (some m)).1.getD i .restored
        = restoreEntry fs backupDir (m.entries.getD i default)) ∧
    ((RestoreFromManifest fs backupDir (some m)).1.filter
        (fun o => !(o == RestoreOutcome.restored))).length
      = (m.entries.filter
          (fun e => !(restoreEntry fs backupDir e == RestoreOutcome.restored))).length := by
  refine ⟨rfl, List.length_map _ _, ?_, ?_⟩
  · intro i hi
    exact getD_map_lt m.entries (restoreEntry fs backupDir) i
      RestoreOutcome.restored default hi
  · exact filter_map_length _ _ _

/-- Scenario filesystem for the C5 witness: `/etc/b` is unwritable. -/
def scenarioFS : RestoreFS :=
  { srcReadable := fun _ => true,
    destWritable := fun p => !(p == str "/etc/b"),
    copyOk := fun _ => true }

/-- Scenario manifest for the C5 witness: three entries. -/
def scenarioManifest : Manifest :=
  { timestamp := str "20240101-000000",
    entries := [⟨str "/etc/a", str "a", 420⟩,
                ⟨str "/etc/b", str "b", 420⟩,
                ⟨str "/etc/c", str "c", 420⟩] }

/-- Witness for C5: three entries, the middle destination unwritable — no
error, the failing entry reports `destOpenFailed`, and exactly one failure
is reported. -/
theorem restoreFromManifest_best_effort_witness :
    (RestoreFromManifest scenarioFS (str "/root/bk") (some scenarioManifest)).2
      = none ∧
    (RestoreFromManifest scenarioFS (str "/root/bk")
        (some scenarioManifest)).1.getD 1 .restored
      = restoreEntry scenarioFS (str "/root/bk")
          (scenarioManifest.entries.getD 1 default) ∧
    ((RestoreFromManifest scenarioFS (str "/root/bk")
        (some scenarioManifest)).1.filter
        (fun o => !(o == RestoreOutcome.restored))).length = 1 := by
  refine ⟨(restoreFromManifest_best_effort scenarioFS (str "/root/bk")
      scenarioManifest).1,
    (restoreFromManifest_best_effort scenarioFS (str "/root/bk")
      scenarioManifest).2.2.1 1 (by decide), ?_⟩
  rw [(restoreFromManifest_best_effort scenarioFS (str "/root/bk")
      scenarioManifest).2.2.2]
  decide

/-! ## Mount table parser (`FstabTuner.ParseFstab` / `GenerateFstab`) -/

/-- One line of the mount table: either a passthrough record (comment, blank
or malformed line kept verbatim in `comment`) or a data entry. -/
structure FstabEntry where
  device : Str
  mountPoint : Str
  fsType : Str
  options : List Str
  dump : Str
  pass : Str
  comment : Str
  isComment : Bool
  deriving DecidableEq, Inhabited

/-- Go `strings.Split` on a one-character separator (also the raw line split
of `bufio.Scanner` before end-of-line handling). -/
def splitOnChar (sep : Char) : Str → List Str
  | [] => [[]]
  | c :: cs =>
    if c = sep then [] :: splitOnChar sep cs
    else
      match splitOnChar sep cs with
      | [] => [[c]]
      | t :: ts => (c :: t) :: ts

/-- Go `strings.Join` with a one-character separator. -/
def joinSep (sep : Char) : List Str → Str
  | [] => []
  | [x] => x
  | x :: xs => x ++ sep :: joinSep sep xs

/-- One step (right to left) of the whitespace-run field splitter. -/
def wsAux (c : Char) (acc : Str × List Str) : Str × List Str :=
  if re2IsSpace c then ([], if acc.1 = [] then acc.2 else acc.1 :: acc.2)
  else (c :: acc.1, acc.2)

/-- Close the field-splitter state into the final field list. -/
def wsClose (acc : Str × List Str) : List Str :=
  if acc.1 = [] then acc.2 else acc.1 :: acc.2

/-- Go `regexp.MustCompile(\s+).Split` applied to a trimmed string: the
maximal runs of non-whitespace characters, in order. -/
def wsFields (s : Str) : List Str := wsClose (s.foldr wsAux ([], []))

/-- Go `bufio.ScanLines` end-of-line handling (`dropCR`): drop one trailing
carriage return from a scanned line. -/
def dropCR (l : Str) : Str :=
  if l.getLast? = some '\r' then l.dropLast else l

/-- A text ending in `\n` yields no extra empty line from the scanner. -/
def dropTrailingEmpty (ps : List Str) : List Str :=
  if ps.getLast? = some [] then ps.dropLast else ps

/-- The sequence of lines seen by `bufio.Scanner` over a file text. -/
def splitLines (text : Str) : List Str :=
  (dropTrailingEmpty (splitOnChar '\n' text)).map dropCR

/-- `ParseFstab`, one scanner line: blank and `#` lines, and lines with fewer
than four whitespace-separated fields, become passthrough entries; otherwise
the six mount-table columns, with missing dump/pass defaulting to `"0"`. -/
def parseFstabLine (line : Str) : FstabEntry :=
  let trimmed := trim line
  if trimmed = [] ∨ trimmed.head? = some '#' then
    { device := [], mountPoint := [], fsType := [], options := [],
      dump := [], pass := [], comment := line, isComment := true }
  else
    let fields := wsFields trimmed
    if fields.length < 4 then
      { device := [], mountPoint := [], fsType := [], options := [],
        dump := [], pass := [], comment := line, isComment := true }
    else
      { device := fields.getD 0 [], mountPoint := fields.getD 1 [],
        fsType := fields.getD 2 [],
        options := splitOnChar ',' (fields.getD 3 []),
        dump := if 4 < fields.length then fields.getD 4 [] else ['0'],
        pass := if 5 < fields.length then fields.getD 5 [] else ['0'],
        comment := [], isComment := false }

/-- `FstabTuner.ParseFstab` over the whole file text. -/
def ParseFstab (text : Str) : List FstabEntry :=
  (splitLines text).map parseFstabLine

/-- Left-justified column of width `w` (Go `%-Ns`). -/
def pad (s : Str) (w : Nat) : Str := s ++ List.replicate (w - s.length) ' '

/-- One generated line: the passthrough text verbatim, or
`fmt.Sprintf("%-45s %-15s %-7s %-30s %s %s", device, mountPoint, fsType,
joined options, dump, pass)`. -/
def renderEntry (e : FstabEntry) : Str :=
  if e.isComment then e.comment
  else
    pad e.device 45 ++ ' ' :: (pad e.mountPoint 15 ++ ' ' ::
      (pad e.fsType 7 ++ ' ' :: (pad (joinSep ',' e.options) 30
        ++ ' ' :: (e.dump ++ ' ' :: e.pass))))

/-- `FstabTuner.GenerateFstab`: generated lines joined with `\n`, plus a
final newline. -/
def GenerateFstab (entries : List FstabEntry) : Str :=
  joinSep '\n' (entries.map renderEntry) ++ ['\n']

theorem splitOnChar_ne_nil (sep : Char) (s : Str) : splitOnChar sep s ≠ [] := by
  induction s with
  | nil => simp [splitOnChar]
  | cons c cs ih =>
    by_cases h : c = sep
    · simp [splitOnChar, h]
    · simp only [splitOnChar, if_neg h]
      cases hs : splitOnChar sep cs with
      | nil => simp
      | cons t ts => simp

theorem splitOnChar_not_mem (sep : Char) (s : Str) :
    ∀ p ∈ splitOnChar sep s, sep ∉ p := by
  induction s with
  | nil =>
    intro p hp
    simp only [splitOnChar, List.mem_singleton] at hp
    simp [hp]
  | cons c cs ih =>
    intro p hp
    by_cases h : c = sep
    · simp only [splitOnChar, if_pos h] at hp
      rcases List.mem_cons.mp hp with rfl | hmem
      · simp
      · exact ih p hmem
    · simp only [splitOnChar, if_neg h] at hp
      cases hs : splitOnChar sep cs with
      | nil =>
        rw [hs] at hp
        simp only [List.mem_singleton] at hp
        subst hp
        intro hc
        simp only [List.mem_singleton] at hc
        exact h hc.symm
      | cons t ts =>
        rw [hs] at hp
        rcases List.mem_cons.mp hp with rfl | hmem
        · intro hc
          rcases List.mem_cons.mp hc with hceq | hmem2
          · exact h hceq.symm
          · have ht : t ∈ splitOnChar sep cs := by
              rw [hs]; exact List.mem_cons_self t ts
            exact ih t ht hmem2
        · have hpm : p ∈ splitOnChar sep cs := by
            rw [hs]; exact List.mem_cons_of_mem t hmem
          exact ih p hpm

theorem splitOnChar_chars (sep : Char) (s : Str) :
    ∀ p ∈ splitOnChar sep s, ∀ c ∈ p, c ∈ s := by
  induction s with
  | nil =>
    intro p hp
    simp only [splitOnChar, List.mem_singleton] at hp
    simp [hp]
  | cons a cs ih =>
    intro p hp c hc
    by_cases h : a = sep
    · simp only [splitOnChar, if_pos h] at hp
      rcases List.mem_cons.mp hp with rfl | hmem
      · simp at hc
      · exact List.mem_cons_of_mem a (ih p hmem c hc)
    · simp only [splitOnChar, if_neg h] at hp
      cases hs : splitOnChar sep cs with
      | nil =>
        rw [hs] at hp
        simp only [List.mem_singleton] at hp
        subst hp
        simp only [List.mem_singleton] at hc
        subst hc
        exact List.mem_cons_self c cs
      | cons t ts =>
        rw [hs] at hp
        rcases List.mem_cons.mp hp with rfl | hmem
        · rcases List.mem_cons.mp hc with rfl | hmem2
          · exact List.mem_cons_self c cs
          · have ht : t ∈ splitOnChar sep cs := by
              rw [hs]; exact List.mem_cons_self t ts
            exact List.mem_cons_of_mem a (ih t ht c hmem2)
        · have hpm : p ∈ splitOnChar sep cs := by
            rw [hs]; exact List.mem_cons_of_mem t hmem
          exact List.mem_cons_of_mem a (ih p hpm c hc)

theorem joinSep_cons_cons (sep : Char) (x y : Str) (ys : List Str) :
    joinSep sep (x :: y :: ys) = x ++ sep :: joinSep sep (y :: ys) := rfl

theorem joinSep_head_cons (sep c : Char) (t : Str) (ts : List Str) :
    joinSep sep ((c :: t) :: ts) = c :: joinSep sep (t :: ts) := by
  cases ts with
  | nil => rfl
  | cons u us => rfl

theorem joinSep_splitOnChar (sep : Char) (s : Str) :
    joinSep sep (splitOnChar sep s) = s := by
  induction s with
  | nil => rfl
  | cons c cs ih =>
    by_cases h : c = sep
    · have hsplit : splitOnChar sep (c :: cs) = [] :: splitOnChar sep cs := by
        simp [splitOnChar, h]
      rw [hsplit]
      cases hs : splitOnChar sep cs with
      | nil => exact absurd hs (splitOnChar_ne_nil sep cs)
      | cons t ts =>
        rw [joinSep_cons_cons, List.nil_append]
        rw [hs] at ih
        rw [ih, h]
    · cases hs : splitOnChar sep cs with
      | nil => exact absurd hs (splitOnChar_ne_nil sep cs)
      | cons t ts =>
        have hsplit : splitOnChar sep (c :: cs) = (c :: t) :: ts := by
          simp [splitOnChar, h, hs]
        rw [hsplit, joinSep_head_cons]
        rw [hs] at ih
        rw [ih]

theorem splitOnChar_sepFree (sep : Char) (y : Str) (h : sep ∉ y) :
    splitOnChar sep y = [y] := by
  induction y with
  | nil => rfl
  | cons c y ih =>
    have hc : ¬ c = sep := fun e => h (by rw [e]; exact List.mem_cons_self sep y)
    have hy : sep ∉ y := fun e => h (List.mem_cons_of_mem c e)
    simp only [splitOnChar, if_neg hc, ih hy]

theorem splitOnChar_field_append (sep : Char) (y rest : Str) (h : sep ∉ y) :
    splitOnChar sep (y ++ sep :: rest) = y :: splitOnChar sep rest := by
  induction y with
  | nil => simp [splitOnChar]
  | cons c y ih =>
    have hc : ¬ c = sep := fun e => h (by rw [e]; exact List.mem_cons_self sep y)
    have hy : sep ∉ y := fun e => h (List.mem_cons_of_mem c e)
    rw [List.cons_append]
    simp only [splitOnChar, if_neg hc, ih hy]

theorem splitOnChar_joinSep (sep : Char) (ys : List Str) (hne : ys ≠ [])
    (h : ∀ y ∈ ys, sep ∉ y) : splitOnChar sep (joinSep sep ys) = ys := by
  induction ys with
  | nil => exact absurd rfl hne
  | cons y ys ih =>
    cases ys with
    | nil => exact splitOnChar_sepFree sep y (h y (List.mem_cons_self y []))
    | cons z zs =>
      rw [joinSep_cons_cons,
        splitOnChar_field_append sep y _ (h y (List.mem_cons_self y (z :: zs))),
        ih (by simp) (fun u hu => h u (List.mem_cons_of_mem y hu))]

theorem splitOnChar_joinSep_concat (sep : Char) (ys : List Str) (hne : ys ≠ [])
    (h : ∀ y ∈ ys, sep ∉ y) :
    splitOnChar sep (joinSep sep ys ++ [sep]) = ys ++ [[]] := by
  induction ys with
  | nil => exact absurd rfl hne
  | cons y ys ih =>
    cases ys with
    | nil =>
      show splitOnChar sep (y ++ sep :: []) = _
      rw [splitOnChar_field_append sep y [] (h y (List.mem_cons_self y []))]
      rfl
    | cons z zs =>
      rw [joinSep_cons_cons, List.append_assoc, List.cons_append,
        splitOnChar_field_append sep y _ (h y (List.mem_cons_self y (z :: zs))),
        ih (by simp) (fun u hu => h u (List.mem_cons_of_mem y hu))]
      rfl

theorem dropTrailingEmpty_concat (ys : List Str) :
    dropTrailingEmpty (ys ++ [[]]) = ys := by
  rw [dropTrailingEmpty, List.getLast?_concat, if_pos rfl, List.dropLast_concat]

theorem wsAux_space (c : Char) (st : Str × List Str) (h : re2IsSpace c = true) :
    wsAux c st = ([], wsClose st) := by
  simp [wsAux, wsClose, h]

theorem wsAux_nonspace (c : Char) (st : Str × List Str)
    (h : re2IsSpace c = false) : wsAux c st = (c :: st.1, st.2) := by
  simp [wsAux, h]

theorem foldr_wsAux_nonspace (f : Str) (st : Str × List Str)
    (hf : ∀ c ∈ f, re2IsSpace c = false) :
    f.foldr wsAux st = (f ++ st.1, st.2) := by
  induction f with
  | nil => rfl
  | cons c f ih =>
    rw [List.foldr_cons, ih (fun d hd => hf d (List.mem_cons_of_mem c hd)),
      wsAux_nonspace c _ (hf c (List.mem_cons_self c f))]
    rfl

theorem foldr_wsAux_space (g : Str) (st : Str × List Str) (hne : g ≠ [])
    (hg : ∀ c ∈ g, re2IsSpace c = true) :
    g.foldr wsAux st = ([], wsClose st) := by
  induction g with
  | nil => exact absurd rfl hne
  | cons c g ih =>
    cases g with
    | nil => exact wsAux_space c st (hg c (List.mem_cons_self c []))
    | cons d g2 =>
      rw [List.foldr_cons,
        ih (by simp) (fun e he => hg e (List.mem_cons_of_mem c he)),
        wsAux_space c _ (hg c (List.mem_cons_self c (d :: g2)))]
      rfl

theorem wsFields_field_gap (f g X : Str) (hf1 : f ≠ [])
    (hf2 : ∀ c ∈ f, re2IsSpace c = false)
    (hg1 : g ≠ []) (hg2 : ∀ c ∈ g, re2IsSpace c = true) :
    wsFields (f ++ (g ++ X)) = f :: wsFields X := by
  rw [wsFields, List.foldr_append, List.foldr_append,
    foldr_wsAux_space g _ hg1 hg2, foldr_wsAux_nonspace f _ hf2]
  show wsClose (f ++ [], wsFields X) = _
  rw [List.append_nil, wsClose, if_neg hf1]

theorem wsFields_single (f : Str) (hf1 : f ≠ [])
    (hf2 : ∀ c ∈ f, re2IsSpace c = false) : wsFields f = [f] := by
  rw [wsFields, foldr_wsAux_nonspace f _ hf2]
  show wsClose (f ++ [], []) = _
  rw [List.append_nil, wsClose, if_neg hf1]

theorem foldr_wsAux_invariant (s : Str) :
    (∀ c ∈ (s.foldr wsAux ([], [])).1, re2IsSpace c = false) ∧
    (∀ f ∈ (s.foldr wsAux ([], [])).2,
      f ≠ [] ∧ ∀ c ∈ f, re2IsSpace c = false) := by
  induction s with
  | nil => exact ⟨by simp, by simp⟩
  | cons a s ih =>
    obtain ⟨ih1, ih2⟩ := ih
    rw [List.foldr_cons]
    cases ha : re2IsSpace a with
    | true =>
      rw [wsAux_space a _ ha]
      refine ⟨by simp, ?_⟩
      intro f hf
      rw [wsClose] at hf
      by_cases hst : (s.foldr wsAux ([], [])).1 = []
      · rw [if_pos hst] at hf
        exact ih2 f hf
      · rw [if_neg hst] at hf
        rcases List.mem_cons.mp hf with rfl | hmem
        · exact ⟨hst, ih1⟩
        · exact ih2 f hmem
    | false =>
      rw [wsAux_nonspace a _ ha]
      refine ⟨?_, ih2⟩
      intro c hc
      rcases List.mem_cons.mp hc with rfl | hmem
      · exact ha
      · exact ih1 c hmem

theorem wsFields_mem_spec (s : Str) :
    ∀ f ∈ wsFields s, f ≠ [] ∧ ∀ c ∈ f, re2IsSpace c = false := by
  intro f hf
  obtain ⟨h1, h2⟩ := foldr_wsAux_invariant s
  rw [wsFields, wsClose] at hf
  by_cases hst : (s.foldr wsAux ([], [])).1 = []
  · rw [if_pos hst] at hf
    exact h2 f hf
  · rw [if_neg hst] at hf
    rcases List.mem_cons.mp hf with rfl | hmem
    · exact ⟨hst, h1⟩
    · exact h2 f hmem

theorem foldr_wsAux_chars (s : Str) :
    (∀ c ∈ (s.foldr wsAux ([], [])).1, c ∈ s) ∧
    (∀ f ∈ (s.foldr wsAux ([], [])).2, ∀ c ∈ f, c ∈ s) := by
  induction s with
  | nil => exact ⟨by simp, by simp⟩
  | cons a s ih =>
    obtain ⟨ih1, ih2⟩ := ih
    rw [List.foldr_cons]
    cases ha : re2IsSpace a with
    | true =>
      rw [wsAux_space a _ ha]
      refine ⟨by simp, ?_⟩
      intro f hf c hc
      rw [wsClose] at hf
      by_cases hst : (s.foldr wsAux ([], [])).1 = []
      · rw [if_pos hst] at hf
        exact List.mem_cons_of_mem a (ih2 f hf c hc)
      · rw [if_neg hst] at hf
        rcases List.mem_cons.mp hf with rfl | hmem
        · exact List.mem_cons_of_mem a (ih1 c hc)
        · exact List.mem_cons_of_mem a (ih2 f hmem c hc)
    | false =>
      rw [wsAux_nonspace a _ ha]
      constructor
      · intro c hc
        rcases List.mem_cons.mp hc with rfl | hmem
        · exact List.mem_cons_self c s
        · exact List.mem_cons_of_mem a (ih1 c hmem)
      · intro f hf c hc
        exact List.mem_cons_of_mem a (ih2 f hf c hc)

theorem wsFields_chars (s : Str) : ∀ f ∈ wsFields s, ∀ c ∈ f, c ∈ s := by
  intro f hf c hc
  obtain ⟨h1, h2⟩ := foldr_wsAux_chars s
  rw [wsFields, wsClose] at hf
  by_cases hst : (s.foldr wsAux ([], [])).1 = []
  · rw [if_pos hst] at hf
    exact h2 f hf c hc
  · rw [if_neg hst] at hf
    rcases List.mem_cons.mp hf with rfl | hmem
    · exact h1 c hc
    · exact h2 f hmem c hc

theorem wsFields_head_cons (c : Char) (s : Str) (hc : re2IsSpace c = false) :
    wsFields (c :: s) =
      (c :: (s.foldr wsAux ([], [])).1) :: (s.foldr wsAux ([], [])).2 := by
  rw [wsFields, List.foldr_cons, wsAux_nonspace c _ hc, wsClose]
  simp

theorem trim_chars (s : Str) : ∀ c ∈ trim s, c ∈ s := by
  intro c hc
  rw [trim] at hc
  have h1 := (List.dropWhile_sublist goIsSpace).subset hc
  rw [List.mem_reverse] at h1
  have h2 := (List.dropWhile_sublist goIsSpace).subset h1
  rwa [List.mem_reverse] at h2

theorem trim_eq_self (s : Str) (c d : Char) (hhead : s.head? = some c)
    (hc : goIsSpace c = false) (hlast : s.getLast? = some d)
    (hd : goIsSpace d = false) : trim s = s := by
  rw [trim]
  have hrev : s.reverse.head? = some d := by rw [List.head?_reverse, hlast]
  obtain ⟨t, ht⟩ : ∃ t, s.reverse = d :: t := by
    cases hr : s.reverse with
    | nil => rw [hr] at hrev; simp at hrev
    | cons x xs =>
      rw [hr] at hrev
      simp only [List.head?_cons, Option.some.injEq] at hrev
      exact ⟨xs, by rw [hrev]⟩
  rw [ht, List.dropWhile_cons, hd]
  simp only [Bool.false_eq_true, if_false]
  rw [← ht, List.reverse_reverse]
  obtain ⟨s2, hs⟩ : ∃ s2, s = c :: s2 := by
    cases hr : s with
    | nil => rw [hr] at hhead; simp at hhead
    | cons x xs =>
      rw [hr] at hhead
      simp only [List.head?_cons, Option.some.injEq] at hhead
      exact ⟨xs, by rw [hhead]⟩
  rw [hs, List.dropWhile_cons, hc]
  simp

theorem trim_concat_space (X : Str) (c : Char) (hc : goIsSpace c = true) :
    trim (X ++ [c]) = trim X := by
  rw [trim, trim, List.reverse_append]
  show (((c :: X.reverse).dropWhile goIsSpace).reverse).dropWhile goIsSpace = _
  rw [List.dropWhile_cons, hc]
  simp

theorem trim_dropCR (l : Str) : trim (dropCR l) = trim l := by
  rw [dropCR]
  by_cases h : l.getLast? = some '\r'
  · rw [if_pos h]
    have hl : l.dropLast ++ ['\r'] = l :=
      List.dropLast_append_getLast? '\r' (by rw [h]; rfl)
    conv_rhs => rw [← hl]
    rw [trim_concat_space _ '\r' (by decide)]
  · rw [if_neg h]

theorem goIsSpace_eq_or (c : Char) :
    goIsSpace c = (re2IsSpace c || unicodeOnlySpace c) := by
  rw [goIsSpace, re2IsSpace, unicodeOnlySpace]
  simp only [Bool.or_assoc]

theorem go_of_re2 (c : Char) (h : re2IsSpace c = true) : goIsSpace c = true := by
  rw [goIsSpace_eq_or, h]
  rfl

theorem re2_false_of_go_false (c : Char) (h : goIsSpace c = false) :
    re2IsSpace c = false := by
  rw [goIsSpace_eq_or] at h
  exact (Bool.or_eq_false_iff.mp h).1

theorem go_false_of (c : Char) (h1 : re2IsSpace c = false)
    (h2 : unicodeOnlySpace c = false) : goIsSpace c = false := by
  rw [goIsSpace_eq_or, h1, h2]
  rfl

theorem getD_mem_of_lt {α : Type} (l : List α) (i : Nat) (d : α)
    (h : i < l.length) : l.getD i d ∈ l := by
  induction l generalizing i with
  | nil => simp at h
  | cons a l ih =>
    cases i with
    | zero => exact List.mem_cons_self a l
    | succ j => exact List.mem_cons_of_mem a (ih j (Nat.lt_of_succ_lt_succ h))

theorem head_dropWhile_false (p : Char → Bool) (l : Str) (c : Char)
    (h : (l.dropWhile p).head? = some c) : p c = false := by
  induction l with
  | nil => simp [List.dropWhile] at h
  | cons a l ih =>
    rw [List.dropWhile_cons] at h
    by_cases hp : p a = true
    · rw [if_pos hp] at h
      exact ih h
    · rw [if_neg hp] at h
      simp only [List.head?_cons, Option.some.injEq] at h
      rw [← h]
      cases hq : p a with
      | false => rfl
      | true => exact absurd hq hp

theorem renderEntry_of_comment (l : Str)
    (h : (parseFstabLine l).isComment = true) :
    renderEntry (parseFstabLine l) = l := by
  by_cases h1 : trim l = [] ∨ (trim l).head? = some '#'
  · simp only [parseFstabLine]
    rw [if_pos h1]
    rfl
  · by_cases h2 : (wsFields (trim l)).length < 4
    · simp only [parseFstabLine]
      rw [if_neg h1, if_pos h2]
      rfl
    · exfalso
      simp only [parseFstabLine] at h
      rw [if_neg h1, if_neg h2] at h
      simp at h

theorem parseFstabLine_isComment_congr (l1 l2 : Str) (h : trim l1 = trim l2) :
    (parseFstabLine l1).isComment = (parseFstabLine l2).isComment := by
  simp only [parseFstabLine, h]
  by_cases h1 : trim l2 = [] ∨ (trim l2).head? = some '#'
  · rw [if_pos h1, if_pos h1]
  · rw [if_neg h1, if_neg h1]
    by_cases h2 : (wsFields (trim l2)).length < 4
    · rw [if_pos h2, if_pos h2]
    · rw [if_neg h2, if_neg h2]

/-- The shape invariants of a data entry produced by `parseFstabLine` on a
line free of Unicode-only whitespace: every column is non-empty and
whitespace-free, the device does not begin the line as a comment, options
carry no comma or whitespace, and the passthrough fields are unused. -/
def EntryWF (e : FstabEntry) : Prop :=
  e.isComment = false ∧ e.comment = [] ∧
  e.device ≠ [] ∧ (∀ c ∈ e.device, goIsSpace c = false) ∧
  e.device.head? ≠ some '#' ∧
  e.mountPoint ≠ [] ∧ (∀ c ∈ e.mountPoint, goIsSpace c = false) ∧
  e.fsType ≠ [] ∧ (∀ c ∈ e.fsType, goIsSpace c = false) ∧
  e.options ≠ [] ∧ joinSep ',' e.options ≠ [] ∧
  (∀ o ∈ e.options, (∀ c ∈ o, goIsSpace c = false) ∧ ',' ∉ o) ∧
  e.dump ≠ [] ∧ (∀ c ∈ e.dump, goIsSpace c = false) ∧
  e.pass ≠ [] ∧ (∀ c ∈ e.pass, goIsSpace c = false)

theorem parseFstabLine_data_eq (l : Str)
    (h1 : ¬(trim l = [] ∨ (trim l).head? = some '#'))
    (h2 : ¬((wsFields (trim l)).length < 4)) :
    parseFstabLine l =
      { device := (wsFields (trim l)).getD 0 [],
        mountPoint := (wsFields (trim l)).getD 1 [],
        fsType := (wsFields (trim l)).getD 2 [],
        options := splitOnChar ',' ((wsFields (trim l)).getD 3 []),
        dump := if 4 < (wsFields (trim l)).length
          then (wsFields (trim l)).getD 4 [] else ['0'],
        pass := if 5 < (wsFields (trim l)).length
          then (wsFields (trim l)).getD 5 [] else ['0'],
        comment := [], isComment := false } := by
  simp only [parseFstabLine]
  rw [if_neg h1, if_neg h2]

theorem parseFstabLine_wf (l : Str)
    (hv : ∀ c ∈ l, unicodeOnlySpace c = false)
    (h : (parseFstabLine l).isComment = false) :
    EntryWF (parseFstabLine l) := by
  by_cases h1 : trim l = [] ∨ (trim l).head? = some '#'
  · exfalso
    simp only [parseFstabLine] at h
    rw [if_pos h1] at h
    simp at h
  · by_cases h2 : (wsFields (trim l)).length < 4
    · exfalso
      simp only [parseFstabLine] at h
      rw [if_neg h1, if_pos h2] at h
      simp at h
    · have h1a : trim l ≠ [] := fun e => h1 (Or.inl e)
      have h1b : (trim l).head? ≠ some '#' := fun e => h1 (Or.inr e)
      have hlen : 4 ≤ (wsFields (trim l)).length := Nat.le_of_not_lt h2
      have hfield : ∀ f ∈ wsFields (trim l),
          f ≠ [] ∧ (∀ c ∈ f, goIsSpace c = false) := by
        intro f hf
        obtain ⟨hne, hre2⟩ := wsFields_mem_spec (trim l) f hf
        refine ⟨hne, fun c hc => ?_⟩
        have hcl : c ∈ l := trim_chars l c (wsFields_chars (trim l) f hf c hc)
        exact go_false_of c (hre2 c hc) (hv c hcl)
      have hget : ∀ i, i < (wsFields (trim l)).length →
          (wsFields (trim l)).getD i [] ∈ wsFields (trim l) :=
        fun i hi => getD_mem_of_lt _ i [] hi
      obtain ⟨c, t, hct⟩ : ∃ c t, trim l = c :: t := by
        cases htr : trim l with
        | nil => exact absurd htr h1a
        | cons x xs => exact ⟨x, xs, rfl⟩
      have hgo_c : goIsSpace c = false := by
        have hch : (trim l).head? = some c := by rw [hct]; rfl
        rw [trim] at hch
        exact head_dropWhile_false goIsSpace _ c hch
      have hre2_c : re2IsSpace c = false := re2_false_of_go_false c hgo_c
      have hdev0 : (wsFields (trim l)).getD 0 []
          = c :: (t.foldr wsAux ([], [])).1 := by
        rw [hct, wsFields_head_cons c t hre2_c]
        rfl
      have hhash : c ≠ '#' := by
        intro e
        exact h1b (by rw [hct, e]; rfl)
      rw [parseFstabLine_data_eq l h1 h2]
      have h0 := hfield _ (hget 0 (Nat.lt_of_lt_of_le (by decide) hlen))
      have hm := hfield _ (hget 1 (Nat.lt_of_lt_of_le (by decide) hlen))
      have hfs := hfield _ (hget 2 (Nat.lt_of_lt_of_le (by decide) hlen))
      have h3 := hfield _ (hget 3 (Nat.lt_of_lt_of_le (by decide) hlen))
      refine ⟨rfl, rfl, h0.1, h0.2, ?_, hm.1, hm.2, hfs.1, hfs.2, ?_, ?_, ?_, ?_, ?_, ?_, ?_⟩
      · show ((wsFields (trim l)).getD 0 []).head? ≠ some '#'
        rw [hdev0]
        simp only [List.head?_cons, ne_eq, Option.some.injEq]
        exact hhash
      · exact splitOnChar_ne_nil ',' _
      · show joinSep ',' (splitOnChar ',' ((wsFields (trim l)).getD 3 [])) ≠ []
        rw [joinSep_splitOnChar]
        exact h3.1
      · intro o ho
        refine ⟨fun d hd => h3.2 d (splitOnChar_chars ',' _ o ho d hd), ?_⟩
        exact splitOnChar_not_mem ',' _ o ho
      · show (if 4 < (wsFields (trim l)).length
            then (wsFields (trim l)).getD 4 [] else ['0']) ≠ []
        by_cases h4 : 4 < (wsFields (trim l)).length
        · rw [if_pos h4]; exact (hfield _ (hget 4 h4)).1
        · rw [if_neg h4]; simp
      · show ∀ d ∈ (if 4 < (wsFields (trim l)).length
            then (wsFields (trim l)).getD 4 [] else ['0']), goIsSpace d = false
        by_cases h4 : 4 < (wsFields (trim l)).length
        · rw [if_pos h4]; exact (hfield _ (hget 4 h4)).2
        · rw [if_neg h4]
          intro d hd
          simp only [List.mem_singleton] at hd
          rw [hd]
          decide
      · show (if 5 < (wsFields (trim l)).length
            then (wsFields (trim l)).getD 5 [] else ['0']) ≠ []
        by_cases h5 : 5 < (wsFields (trim l)).length
        · rw [if_pos h5]; exact (hfield _ (hget 5 h5)).1
        · rw [if_neg h5]; simp
      · show ∀ d ∈ (if 5 < (wsFields (trim l)).length
            then (wsFields (trim l)).getD 5 [] else ['0']), goIsSpace d = false
        by_cases h5 : 5 < (wsFields (trim l)).length
        · rw [if_pos h5]; exact (hfield _ (hget 5 h5)).2
        · rw [if_neg h5]
          intro d hd
          simp only [List.mem_singleton] at hd
          rw [hd]
          decide

theorem head?_append_left {α : Type} (l1 l2 : List α) (h : l1 ≠ []) :
    (l1 ++ l2).head? = l1.head? := by
  cases l1 with
  | nil => exact absurd rfl h
  | cons a t => rfl

theorem getLast?_append_ne {α : Type} (l1 l2 : List α) (h : l2 ≠ []) :
    (l1 ++ l2).getLast? = l2.getLast? := by
  rw [← List.head?_reverse, ← List.head?_reverse, List.reverse_append]
  cases hr : l2.reverse with
  | nil => exact absurd (by simpa using hr) h
  | cons x xs => rfl

theorem getLast?_gap (X T : Str) (h : T ≠ []) :
    (X ++ ' ' :: T).getLast? = T.getLast? := by
  rw [show X ++ ' ' :: T = (X ++ [' ']) ++ T from (List.append_assoc X [' '] T).symm]
  exact getLast?_append_ne _ _ h

theorem pad_chars (s : Str) (w : Nat) : ∀ c ∈ pad s w, c ∈ s ∨ c = ' ' := by
  intro c hc
  rcases List.mem_append.mp hc with h | h
  · exact Or.inl h
  · exact Or.inr (List.eq_of_mem_replicate h)

theorem joinSep_chars (sep : Char) (ys : List Str) :
    ∀ c ∈ joinSep sep ys, c = sep ∨ ∃ y ∈ ys, c ∈ y := by
  induction ys with
  | nil => intro c hc; simp [joinSep] at hc
  | cons y ys ih =>
    intro c hc
    cases ys with
    | nil => exact Or.inr ⟨y, List.mem_cons_self y [], hc⟩
    | cons z zs =>
      rw [joinSep_cons_cons] at hc
      rcases List.mem_append.mp hc with hy | hrest
      · exact Or.inr ⟨y, List.mem_cons_self y (z :: zs), hy⟩
      · rcases List.mem_cons.mp hrest with rfl | h2
        · exact Or.inl rfl
        · rcases ih c h2 with h | ⟨u, hu, hcu⟩
          · exact Or.inl h
          · exact Or.inr ⟨u, List.mem_cons_of_mem y hu, hcu⟩

theorem render_isComment_false (e : FstabEntry) (h : e.isComment = false) :
    renderEntry e =
      pad e.device 45 ++ ' ' :: (pad e.mountPoint 15 ++ ' ' ::
        (pad e.fsType 7 ++ ' ' :: (pad (joinSep ',' e.options) 30
          ++ ' ' :: (e.dump ++ ' ' :: e.pass)))) := by
  rw [renderEntry, if_neg (by rw [h]; exact Bool.false_ne_true)]

theorem pad_ne_nil (s : Str) (w : Nat) (h : s ≠ []) : pad s w ≠ [] := by
  intro hnil
  exact h (List.append_eq_nil.mp hnil).1

theorem head?_render_data (e : FstabEntry) (hic : e.isComment = false)
    (hdev : e.device ≠ []) :
    (renderEntry e).head? = e.device.head? := by
  rw [render_isComment_false e hic,
    head?_append_left _ _ (pad_ne_nil _ _ hdev)]
  exact head?_append_left _ _ hdev

theorem getLast?_render_data (e : FstabEntry) (hic : e.isComment = false)
    (hpass : e.pass ≠ []) :
    (renderEntry e).getLast? = e.pass.getLast? := by
  rw [render_isComment_false e hic]
  rw [getLast?_gap _ _ (by simp)]
  rw [getLast?_gap _ _ (by simp)]
  rw [getLast?_gap _ _ (by simp)]
  rw [getLast?_gap _ _ (by simp [hpass])]
  exact getLast?_gap _ _ hpass

theorem dropCR_render_data (e : FstabEntry) (hic : e.isComment = false)
    (hpass : e.pass ≠ []) (hpass2 : ∀ c ∈ e.pass, goIsSpace c = false) :
    dropCR (renderEntry e) = renderEntry e := by
  rw [dropCR]
  have hlast : (renderEntry e).getLast? = e.pass.getLast? :=
    getLast?_render_data e hic hpass
  have hd : e.pass.getLast? = some (e.pass.getLast hpass) :=
    List.getLast?_eq_getLast e.pass hpass
  have hmem : e.pass.getLast hpass ∈ e.pass := List.getLast_mem hpass
  have hgo := hpass2 _ hmem
  rw [if_neg ?_]
  intro hcr
  rw [hlast, hd] at hcr
  have : e.pass.getLast hpass = '\r' := by injection hcr
  rw [this] at hgo
  exact absurd hgo (by decide)

theorem newline_not_mem_render (e : FstabEntry) (hwf : EntryWF e) :
    '\n' ∉ renderEntry e := by
  obtain ⟨h1, h2, h3, h4, h5, h6, h7, h8, h9, h10, h11, h12, h13, h14, h15, h16⟩ := hwf
  intro hc
  rw [render_isComment_false e h1] at hc
  have hgo : goIsSpace '\n' = true := by decide
  have hspace : ('\n' : Char) ≠ ' ' := by decide
  have hfree : ∀ (s : Str), (∀ c ∈ s, goIsSpace c = false) → '\n' ∉ s := by
    intro s hs hmem
    have := hs '\n' hmem
    rw [this] at hgo
    exact Bool.false_ne_true hgo
  have hpadfree : ∀ (s : Str) (w : Nat),
      (∀ c ∈ s, goIsSpace c = false) → '\n' ∉ pad s w := by
    intro s w hs hmem
    rcases pad_chars s w '\n' hmem with h | h
    · exact hfree s hs h
    · exact hspace h
  have hjoin : '\n' ∉ joinSep ',' e.options := by
    intro hmem
    rcases joinSep_chars ',' e.options '\n' hmem with h | ⟨o, ho, hco⟩
    · exact absurd h (by decide)
    · exact hfree o (h12 o ho).1 hco
  rcases List.mem_append.mp hc with h | hc
  · exact hpadfree _ _ h4 h
  rcases List.mem_cons.mp hc with h | hc
  · exact hspace h
  rcases List.mem_append.mp hc with h | hc
  · exact hpadfree _ _ h7 h
  rcases List.mem_cons.mp hc with h | hc
  · exact hspace h
  rcases List.mem_append.mp hc with h | hc
  · exact hpadfree _ _ h9 h
  rcases List.mem_cons.mp hc with h | hc
  · exact hspace h
  rcases List.mem_append.mp hc with h | hc
  · exact hpadfree _ _ (fun c hm => by
      rcases joinSep_chars ',' e.options c hm with hcm | ⟨o, ho, hco⟩
      · rw [hcm]; decide
      · exact (h12 o ho).1 c hco) h
  rcases List.mem_cons.mp hc with h | hc
  · exact hspace h
  rcases List.mem_append.mp hc with h | hc
  · exact hfree _ h14 h
  rcases List.mem_cons.mp hc with h | hc
  · exact hspace h
  · exact hfree _ h16 hc

theorem wsFields_pad_gap (f : Str) (w : Nat) (X : Str) (hf1 : f ≠ [])
    (hf2 : ∀ c ∈ f, re2IsSpace c = false) :
    wsFields (pad f w ++ ' ' :: X) = f :: wsFields X := by
  have heq : pad f w ++ ' ' :: X
      = f ++ ((List.replicate (w - f.length) ' ' ++ [' ']) ++ X) := by
    simp [pad, List.append_assoc]
  rw [heq]
  refine wsFields_field_gap f _ X hf1 hf2 (by simp) ?_
  intro c hc
  rcases List.mem_append.mp hc with h | h
  · rw [List.eq_of_mem_replicate h]; decide
  · rw [List.mem_singleton.mp h]; decide

theorem wsFields_two (f g : Str) (hf1 : f ≠ [])
    (hf2 : ∀ c ∈ f, re2IsSpace c = false) (hg1 : g ≠ [])
    (hg2 : ∀ c ∈ g, re2IsSpace c = false) :
    wsFields (f ++ ' ' :: g) = [f, g] := by
  have heq : f ++ ' ' :: g = f ++ ([' '] ++ g) := rfl
  rw [heq, wsFields_field_gap f [' '] g hf1 hf2 (by simp)
    (by intro c hc; rw [List.mem_singleton.mp hc]; decide),
    wsFields_single g hg1 hg2]

theorem wsFields_render_data (e : FstabEntry) (hwf : EntryWF e) :
    wsFields (renderEntry e) =
      [e.device, e.mountPoint, e.fsType, joinSep ',' e.options,
        e.dump, e.pass] := by
  obtain ⟨h1, h2, h3, h4, h5, h6, h7, h8, h9, h10, h11, h12, h13, h14, h15, h16⟩ := hwf
  have hre2 : ∀ (s : Str), (∀ c ∈ s, goIsSpace c = false) →
      ∀ c ∈ s, re2IsSpace c = false :=
    fun s hs c hc => re2_false_of_go_false c (hs c hc)
  have hjoin : ∀ c ∈ joinSep ',' e.options, re2IsSpace c = false := by
    intro c hc
    rcases joinSep_chars ',' e.options c hc with rfl | ⟨o, ho, hco⟩
    · decide
    · exact re2_false_of_go_false c ((h12 o ho).1 c hco)
  rw [render_isComment_false e h1,
    wsFields_pad_gap _ 45 _ h3 (hre2 _ h4),
    wsFields_pad_gap _ 15 _ h6 (hre2 _ h7),
    wsFields_pad_gap _ 7 _ h8 (hre2 _ h9),
    wsFields_pad_gap _ 30 _ h11 hjoin,
    wsFields_two _ _ h13 (hre2 _ h14) h15 (hre2 _ h16)]

theorem trim_render_data (e : FstabEntry) (hwf : EntryWF e) :
    trim (renderEntry e) = renderEntry e := by
  obtain ⟨h1, h2, h3, h4, h5, h6, h7, h8, h9, h10, h11, h12, h13, h14, h15, h16⟩ := hwf
  obtain ⟨c, dv, hdev⟩ : ∃ c dv, e.device = c :: dv := by
    cases hd : e.device with
    | nil => exact absurd hd h3
    | cons x xs => exact ⟨x, xs, rfl⟩
  have hhead : (renderEntry e).head? = some c := by
    rw [head?_render_data e h1 h3, hdev]
    rfl
  have hc : goIsSpace c = false :=
    h4 c (by rw [hdev]; exact List.mem_cons_self c dv)
  have hlastp : e.pass.getLast? = some (e.pass.getLast h15) :=
    List.getLast?_eq_getLast e.pass h15
  have hlast : (renderEntry e).getLast? = some (e.pass.getLast h15) := by
    rw [getLast?_render_data e h1 h15, hlastp]
  have hdgo : goIsSpace (e.pass.getLast h15) = false :=
    h16 _ (List.getLast_mem h15)
  exact trim_eq_self (renderEntry e) c (e.pass.getLast h15) hhead hc hlast hdgo

theorem parse_render_data (e : FstabEntry) (hwf : EntryWF e) :
    parseFstabLine (renderEntry e) = e := by
  have hfields := wsFields_render_data e hwf
  have htrim := trim_render_data e hwf
  obtain ⟨h1, h2, h3, h4, h5, h6, h7, h8, h9, h10, h11, h12, h13, h14, h15, h16⟩ := hwf
  have hhead : (renderEntry e).head? = e.device.head? := head?_render_data e h1 h3
  have hne : renderEntry e ≠ [] := by
    intro hnil
    rw [render_isComment_false e h1] at hnil
    exact pad_ne_nil _ 45 h3 (List.append_eq_nil.mp hnil).1
  have hcond1 : ¬(trim (renderEntry e) = []
      ∨ (trim (renderEntry e)).head? = some '#') := by
    rw [htrim]
    rintro (hnil | hhash)
    · exact hne hnil
    · rw [hhead] at hhash
      exact h5 hhash
  have hcond2 : ¬((wsFields (trim (renderEntry e))).length < 4) := by
    rw [htrim, hfields]
    rw [show ([e.device, e.mountPoint, e.fsType, joinSep ',' e.options,
      e.dump, e.pass] : List Str).length = 6 from rfl]
    decide
  rw [parseFstabLine_data_eq (renderEntry e) hcond1 hcond2]
  rw [htrim, hfields]
  have hopts : splitOnChar ',' ([e.device, e.mountPoint, e.fsType,
      joinSep ',' e.options, e.dump, e.pass].getD 3 []) = e.options := by
    show splitOnChar ',' (joinSep ',' e.options) = e.options
    exact splitOnChar_joinSep ',' e.options h10 (fun o ho => (h12 o ho).2)
  have hlen : ([e.device, e.mountPoint, e.fsType, joinSep ',' e.options,
      e.dump, e.pass] : List Str).length = 6 := rfl
  rw [hopts, hlen, if_pos (by decide : (4:Nat) < 6),
    if_pos (by decide : (5:Nat) < 6)]
  cases e with
  | mk dev mp fs os du pa co ic =>
    have hco : co = [] := h2
    have hic : ic = false := h1
    rw [hco, hic]
    rfl

theorem mem_splitLines_src (t l : Str) (hl : l ∈ splitLines t) :
    ∃ l0 ∈ splitOnChar '\n' t, ∀ c ∈ l, c ∈ l0 := by
  rw [splitLines] at hl
  obtain ⟨l0, hl0, rfl⟩ := List.mem_map.mp hl
  have hl1 : l0 ∈ splitOnChar '\n' t := by
    rw [dropTrailingEmpty] at hl0
    by_cases h : (splitOnChar '\n' t).getLast? = some []
    · rw [if_pos h] at hl0
      exact (List.dropLast_sublist _).subset hl0
    · rw [if_neg h] at hl0
      exact hl0
  refine ⟨l0, hl1, ?_⟩
  intro c hc
  rw [dropCR] at hc
  by_cases h : l0.getLast? = some '\r'
  · rw [if_pos h] at hc
    exact (List.dropLast_sublist l0).subset hc
  · rw [if_neg h] at hc
    exact hc

theorem splitLines_chars (t : Str) : ∀ l ∈ splitLines t, ∀ c ∈ l, c ∈ t := by
  intro l hl c hc
  obtain ⟨l0, hl0, hsub⟩ := mem_splitLines_src t l hl
  exact splitOnChar_chars '\n' t l0 hl0 c (hsub c hc)

theorem newline_not_mem_splitLines (t : Str) :
    ∀ l ∈ splitLines t, '\n' ∉ l := by
  intro l hl hmem
  obtain ⟨l0, hl0, hsub⟩ := mem_splitLines_src t l hl
  exact splitOnChar_not_mem '\n' t l0 hl0 (hsub '\n' hmem)

theorem splitLines_generate (es : List FstabEntry) (hne : es ≠ [])
    (hnl : ∀ e ∈ es, '\n' ∉ renderEntry e) :
    splitLines (GenerateFstab es) = (es.map renderEntry).map dropCR := by
  rw [GenerateFstab, splitLines]
  have hys : es.map renderEntry ≠ [] := by
    cases es with
    | nil => exact absurd rfl hne
    | cons a t => simp
  have hfree : ∀ y ∈ es.map renderEntry, '\n' ∉ y := by
    intro y hy
    obtain ⟨e, he, rfl⟩ := List.mem_map.mp hy
    exact hnl e he
  rw [splitOnChar_joinSep_concat '\n' (es.map renderEntry) hys hfree,
    dropTrailingEmpty_concat]

theorem roundtrip_filter_lines (lines : List Str)
    (hv : ∀ l ∈ lines, ∀ c ∈ l, unicodeOnlySpace c = false) :
    (lines.map (fun l =>
        parseFstabLine (dropCR (renderEntry (parseFstabLine l))))).filter
        (fun e => !e.isComment)
      = (lines.map parseFstabLine).filter (fun e => !e.isComment) := by
  induction lines with
  | nil => rfl
  | cons l lines ih =>
    rw [List.map_cons, List.map_cons, List.filter_cons, List.filter_cons]
    have htail := ih (fun u hu => hv u (List.mem_cons_of_mem l hu))
    cases hic : (parseFstabLine l).isComment with
    | true =>
      have hrender := renderEntry_of_comment l hic
      have hcomment2 : (parseFstabLine (dropCR l)).isComment = true := by
        rw [parseFstabLine_isComment_congr (dropCR l) l (trim_dropCR l), hic]
      rw [hrender]
      simp only [hcomment2, hic, Bool.not_true]
      simp only [Bool.false_eq_true, if_false]
      exact htail
    | false =>
      have hwf := parseFstabLine_wf l (hv l (List.mem_cons_self l lines)) hic
      have hdrop : dropCR (renderEntry (parseFstabLine l))
          = renderEntry (parseFstabLine l) := by
        obtain ⟨h1, h2, h3, h4, h5, h6, h7, h8, h9, h10, h11, h12,
          h13, h14, h15, h16⟩ := hwf
        exact dropCR_render_data _ h1 h15 h16
      rw [hdrop, parse_render_data _ hwf]
      simp only [hic, Bool.not_false, if_true]
      rw [htail]

/-- C4 holds for texts containing none of the characters on which Go's
`strings.TrimSpace` and regexp `\s` whitespace classes disagree (vertical
tab, NEL, NBSP and the other Unicode-only spaces): serialize-then-parse
reproduces every passthrough line byte-identical in place, and re-parsing
the serialized output yields exactly the data entries of the first parse,
field for field. -/
theorem fstab_roundtrip_no_unicode_space (x : Str)
    (hv : ∀ c ∈ x, unicodeOnlySpace c = false) :
    (ParseFstab x).length = (splitLines x).length ∧
    (∀ i, i < (splitLines x).length →
      ((ParseFstab x).getD i default).isComment = true →
      ((ParseFstab x).map renderEntry).getD i [] = (splitLines x).getD i []) ∧
    (ParseFstab (GenerateFstab (ParseFstab x))).filter (fun e => !e.isComment)
      = (ParseFstab x).filter (fun e => !e.isComment) := by
  refine ⟨List.length_map _ _, ?_, ?_⟩
  · intro i hi hcom
    have h1 : (ParseFstab x).getD i default
        = parseFstabLine ((splitLines x).getD i []) :=
      getD_map_lt (splitLines x) parseFstabLine i default [] hi
    have h2 : ((ParseFstab x).map renderEntry).getD i []
        = renderEntry ((ParseFstab x).getD i default) := by
      refine getD_map_lt (ParseFstab x) renderEntry i [] default ?_
      rw [ParseFstab, List.length_map]
      exact hi
    rw [h2, h1]
    rw [h1] at hcom
    exact renderEntry_of_comment _ hcom
  · cases hsplit : splitLines x with
    | nil =>
      have hes : ParseFstab x = [] := by rw [ParseFstab, hsplit]; rfl
      rw [hes]
      decide
    | cons l0 rest =>
      have hes : ParseFstab x = (splitLines x).map parseFstabLine := rfl
      have hnes : ParseFstab x ≠ [] := by rw [hes, hsplit]; simp
      have hvlines : ∀ l ∈ splitLines x, ∀ c ∈ l, unicodeOnlySpace c = false := by
        intro l hl c hc
        exact hv c (splitLines_chars x l hl c hc)
      have hnl : ∀ e ∈ ParseFstab x, '\n' ∉ renderEntry e := by
        intro e he
        rw [hes] at he
        obtain ⟨l, hl, rfl⟩ := List.mem_map.mp he
        cases hic : (parseFstabLine l).isComment with
        | true =>
          rw [renderEntry_of_comment l hic]
          exact newline_not_mem_splitLines x l hl
        | false =>
          exact newline_not_mem_render _ (parseFstabLine_wf l (hvlines l hl) hic)
      have hgen := splitLines_generate (ParseFstab x) hnes hnl
      have hrw : ParseFstab (GenerateFstab (ParseFstab x))
          = (splitLines (GenerateFstab (ParseFstab x))).map parseFstabLine := rfl
      rw [hrw, hgen, hes, List.map_map, List.map_map, List.map_map]
      exact roundtrip_filter_lines (splitLines x) hvlines

/-- C4 as literally stated fails on the code: on a data line with seven
whitespace-separated fields whose sixth field ends in a vertical tab
(`\x0b` — the ASCII member of the set of characters that `strings.TrimSpace`
strips but the RE2 `\s` class does not split on), re-parsing the serialized
output changes the pass field, so the data entries are not reproduced. -/
theorem fstab_roundtrip_counterexample :
    ¬((ParseFstab (GenerateFstab (ParseFstab
        (str "d m t o 0 1\x0b x\n")))).filter (fun e => !e.isComment)
      = (ParseFstab (str "d m t o 0 1\x0b x\n")).filter
          (fun e => !e.isComment)) := by
  decide

/-- Witness for the amended C4 on a text with a comment line, a data line
omitting dump/pass, and a malformed line. -/
theorem fstab_roundtrip_no_unicode_space_witness :
    (ParseFstab (str "# header\nUUID=1 / ext4 rw\nshort\n")).length
      = (splitLines (str "# header\nUUID=1 / ext4 rw\nshort\n")).length ∧
    ((ParseFstab (str "# header\nUUID=1 / ext4 rw\nshort\n")).map
        renderEntry).getD 0 []
      = (splitLines (str "# header\nUUID=1 / ext4 rw\nshort\n")).getD 0 [] ∧
    (ParseFstab (GenerateFstab (ParseFstab
        (str "# header\nUUID=1 / ext4 rw\nshort\n")))).filter
        (fun e => !e.isComment)
      = (ParseFstab (str "# header\nUUID=1 / ext4 rw\nshort\n")).filter
          (fun e => !e.isComment) :=
  ⟨(fstab_roundtrip_no_unicode_space _ (by decide)).1,
   (fstab_roundtrip_no_unicode_space _ (by decide)).2.1 0 (by decide) (by decide),
   (fstab_roundtrip_no_unicode_space _ (by decide)).2.2⟩

theorem wsFields_render_gen (e : FstabEntry) (hic : e.isComment = false)
    (h3 : e.device ≠ []) (h4 : ∀ c ∈ e.device, re2IsSpace c = false)
    (h6 : e.mountPoint ≠ []) (h7 : ∀ c ∈ e.mountPoint, re2IsSpace c = false)
    (h8 : e.fsType ≠ []) (h9 : ∀ c ∈ e.fsType, re2IsSpace c = false)
    (h11 : joinSep ',' e.options ≠ [])
    (h12 : ∀ c ∈ joinSep ',' e.options, re2IsSpace c = false)
    (h13 : e.dump ≠ []) (h14 : ∀ c ∈ e.dump, re2IsSpace c = false)
    (h15 : e.pass ≠ []) (h16 : ∀ c ∈ e.pass, re2IsSpace c = false) :
    wsFields (renderEntry e) =
      [e.device, e.mountPoint, e.fsType, joinSep ',' e.options,
        e.dump, e.pass] := by
  rw [render_isComment_false e hic,
    wsFields_pad_gap _ 45 _ h3 h4,
    wsFields_pad_gap _ 15 _ h6 h7,
    wsFields_pad_gap _ 7 _ h8 h9,
    wsFields_pad_gap _ 30 _ h11 h12,
    wsFields_two _ _ h13 h14 h15 h16]

theorem trim_render_gen (e : FstabEntry) (hic : e.isComment = false)
    (h3 : e.device ≠ [])
    (hheadgo : ∀ c, e.device.head? = some c → goIsSpace c = false)
    (h15 : e.pass ≠ []) (hlastgo : goIsSpace (e.pass.getLast h15) = false) :
    trim (renderEntry e) = renderEntry e := by
  obtain ⟨c, dv, hdev⟩ : ∃ c dv, e.device = c :: dv := by
    cases hd : e.device with
    | nil => exact absurd hd h3
    | cons x xs => exact ⟨x, xs, rfl⟩
  have hhead : (renderEntry e).head? = some c := by
    rw [head?_render_data e hic h3, hdev]
    rfl
  have hc : goIsSpace c = false := hheadgo c (by rw [hdev]; rfl)
  have hlast : (renderEntry e).getLast? = some (e.pass.getLast h15) := by
    rw [getLast?_render_data e hic h15]
    exact List.getLast?_eq_getLast e.pass h15
  exact trim_eq_self (renderEntry e) c (e.pass.getLast h15) hhead hc hlast hlastgo

theorem render_columns_of_short (dev mp fs f3 du : Str)
    (hdev : dev ≠ [] ∧ ∀ c ∈ dev, re2IsSpace c = false)
    (hheadgo : ∀ c, dev.head? = some c → goIsSpace c = false)
    (hmp : mp ≠ [] ∧ ∀ c ∈ mp, re2IsSpace c = false)
    (hfs : fs ≠ [] ∧ ∀ c ∈ fs, re2IsSpace c = false)
    (hf3 : f3 ≠ [] ∧ ∀ c ∈ f3, re2IsSpace c = false)
    (hdu : du ≠ [] ∧ ∀ c ∈ du, re2IsSpace c = false) :
    wsFields (trim (renderEntry
      { device := dev, mountPoint := mp, fsType := fs,
        options := splitOnChar ',' f3, dump := du, pass := ['0'],
        comment := [], isComment := false }))
      = [dev, mp, fs, f3, du, ['0']] := by
  have hjoin : joinSep ',' (splitOnChar ',' f3) = f3 := joinSep_splitOnChar ',' f3
  have htrim := trim_render_gen
    { device := dev, mountPoint := mp, fsType := fs,
      options := splitOnChar ',' f3, dump := du, pass := ['0'],
      comment := [], isComment := false }
    rfl hdev.1 (fun c hc => hheadgo c hc) (by simp)
    (by show goIsSpace '0' = false; decide)
  rw [htrim]
  have hws := wsFields_render_gen
    { device := dev, mountPoint := mp, fsType := fs,
      options := splitOnChar ',' f3, dump := du, pass := ['0'],
      comment := [], isComment := false }
    rfl hdev.1 hdev.2 hmp.1 hmp.2 hfs.1 hfs.2
    (by show joinSep ',' (splitOnChar ',' f3) ≠ []; rw [hjoin]; exact hf3.1)
    (by show ∀ c ∈ joinSep ',' (splitOnChar ',' f3), _; rw [hjoin]; exact hf3.2)
    hdu.1 hdu.2 (by simp)
    (by intro c hc; simp only [List.mem_singleton] at hc; rw [hc]; decide)
  rw [hws]
  show [dev, mp, fs, joinSep ',' (splitOnChar ',' f3), du, ['0']] = _
  rw [hjoin]

/-- C10: every data entry parsed by `ParseFstab` carries non-empty dump and
pass values; a four-field line defaults both to `"0"`, a five-field line
defaults pass to `"0"` and takes dump from the fifth field; and for such
short lines the serialized output carries explicit fifth and sixth
whitespace-separated columns equal to the entry's dump and pass. -/
theorem fstab_dump_pass_defaults (l : Str)
    (h : (parseFstabLine l).isComment = false) :
    0 < (parseFstabLine l).dump.length ∧
    0 < (parseFstabLine l).pass.length ∧
    ((wsFields (trim l)).length = 4 →
      (parseFstabLine l).dump = ['0'] ∧ (parseFstabLine l).pass = ['0']) ∧
    ((wsFields (trim l)).length = 5 →
      (parseFstabLine l).dump = (wsFields (trim l)).getD 4 [] ∧
      (parseFstabLine l).pass = ['0']) ∧
    ((wsFields (trim l)).length < 6 →
      (wsFields (trim (renderEntry (parseFstabLine l)))).getD 4 []
        = (parseFstabLine l).dump ∧
      (wsFields (trim (renderEntry (parseFstabLine l)))).getD 5 []
        = (parseFstabLine l).pass) := by
  by_cases h1 : trim l = [] ∨ (trim l).head? = some '#'
  · exfalso
    simp only [parseFstabLine] at h
    rw [if_pos h1] at h
    simp at h
  by_cases h2 : (wsFields (trim l)).length < 4
  · exfalso
    simp only [parseFstabLine] at h
    rw [if_neg h1, if_pos h2] at h
    simp at h
  have h1a : trim l ≠ [] := fun e => h1 (Or.inl e)
  have h1b : (trim l).head? ≠ some '#' := fun e => h1 (Or.inr e)
  have hlen : 4 ≤ (wsFields (trim l)).length := Nat.le_of_not_lt h2
  have hpl := parseFstabLine_data_eq l h1 h2
  have hfield := wsFields_mem_spec (trim l)
  obtain ⟨c, t, hct⟩ : ∃ c t, trim l = c :: t := by
    cases htr : trim l with
    | nil => exact absurd htr h1a
    | cons x xs => exact ⟨x, xs, rfl⟩
  have hgo_c : goIsSpace c = false := by
    have hch : (trim l).head? = some c := by rw [hct]; rfl
    rw [trim] at hch
    exact head_dropWhile_false goIsSpace _ c hch
  have hre2_c : re2IsSpace c = false := re2_false_of_go_false c hgo_c
  have hdev0 : (wsFields (trim l)).getD 0 []
      = c :: (t.foldr wsAux ([], [])).1 := by
    rw [hct, wsFields_head_cons c t hre2_c]
    rfl
  have hheadgo : ∀ d, ((wsFields (trim l)).getD 0 []).head? = some d →
      goIsSpace d = false := by
    intro d hd
    rw [hdev0] at hd
    simp only [List.head?_cons, Option.some.injEq] at hd
    rw [← hd]
    exact hgo_c
  rw [hpl]
  refine ⟨?_, ?_, ?_, ?_, ?_⟩
  · show 0 < (if 4 < (wsFields (trim l)).length
      then (wsFields (trim l)).getD 4 [] else ['0']).length
    by_cases h4 : 4 < (wsFields (trim l)).length
    · rw [if_pos h4]
      exact List.length_pos.mpr (hfield _ (getD_mem_of_lt _ 4 [] h4)).1
    · rw [if_neg h4]
      decide
  · show 0 < (if 5 < (wsFields (trim l)).length
      then (wsFields (trim l)).getD 5 [] else ['0']).length
    by_cases h5 : 5 < (wsFields (trim l)).length
    · rw [if_pos h5]
      exact List.length_pos.mpr (hfield _ (getD_mem_of_lt _ 5 [] h5)).1
    · rw [if_neg h5]
      decide
  · intro hl4
    constructor
    · show (if 4 < (wsFields (trim l)).length
        then (wsFields (trim l)).getD 4 [] else ['0']) = ['0']
      rw [if_neg (by rw [hl4]; decide)]
    · show (if 5 < (wsFields (trim l)).length
        then (wsFields (trim l)).getD 5 [] else ['0']) = ['0']
      rw [if_neg (by rw [hl4]; decide)]
  · intro hl5
    constructor
    · show (if 4 < (wsFields (trim l)).length
        then (wsFields (trim l)).getD 4 [] else ['0'])
        = (wsFields (trim l)).getD 4 []
      rw [if_pos (by rw [hl5]; decide)]
    · show (if 5 < (wsFields (trim l)).length
        then (wsFields (trim l)).getD 5 [] else ['0']) = ['0']
      rw [if_neg (by rw [hl5]; decide)]
  · intro hl6
    have hpass : (if 5 < (wsFields (trim l)).length
        then (wsFields (trim l)).getD 5 [] else ['0']) = ['0'] := by
      rw [if_neg (by omega)]
    rw [hpass]
    have hdu : (if 4 < (wsFields (trim l)).length
          then (wsFields (trim l)).getD 4 [] else ['0']) ≠ [] ∧
        ∀ d ∈ (if 4 < (wsFields (trim l)).length
          then (wsFields (trim l)).getD 4 [] else ['0']),
          re2IsSpace d = false := by
      by_cases h4 : 4 < (wsFields (trim l)).length
      · rw [if_pos h4]
        exact hfield _ (getD_mem_of_lt _ 4 [] h4)
      · rw [if_neg h4]
        refine ⟨by simp, ?_⟩
        intro d hd
        simp only [List.mem_singleton] at hd
        rw [hd]
        decide
    have hcols := render_columns_of_short
      ((wsFields (trim l)).getD 0 []) ((wsFields (trim l)).getD 1 [])
      ((wsFields (trim l)).getD 2 []) ((wsFields (trim l)).getD 3 [])
      (if 4 < (wsFields (trim l)).length
        then (wsFields (trim l)).getD 4 [] else ['0'])
      (hfield _ (getD_mem_of_lt _ 0 [] (Nat.lt_of_lt_of_le (by decide) hlen)))
      hheadgo
      (hfield _ (getD_mem_of_lt _ 1 [] (Nat.lt_of_lt_of_le (by decide) hlen)))
      (hfield _ (getD_mem_of_lt _ 2 [] (Nat.lt_of_lt_of_le (by decide) hlen)))
      (hfield _ (getD_mem_of_lt _ 3 [] (Nat.lt_of_lt_of_le (by decide) hlen)))
      hdu
    rw [hcols]
    exact ⟨rfl, rfl⟩

/-- Witness for C10 on the four-field line `UUID=1 / ext4 rw`. -/
theorem fstab_dump_pass_defaults_witness :
    (parseFstabLine (str "UUID=1 / ext4 rw")).dump = ['0'] ∧
    (parseFstabLine (str "UUID=1 / ext4 rw")).pass = ['0'] ∧
    (wsFields (trim (renderEntry
        (parseFstabLine (str "UUID=1 / ext4 rw"))))).getD 4 []
      = (parseFstabLine (str "UUID=1 / ext4 rw")).dump :=
  ⟨((fstab_dump_pass_defaults _ (by decide)).2.2.1 (by decide)).1,
   ((fstab_dump_pass_defaults _ (by decide)).2.2.1 (by decide)).2,
   ((fstab_dump_pass_defaults _ (by decide)).2.2.2.2 (by decide)).1⟩
